import Mathlib

/-!
Shallow embedding of the `phimap`/`typemap` repository (jxskiss/intintmap).

The table (`PhiMap`) is embedded from `src/phimap.go`:
`uint64` values are Nats reduced modulo `2^64` where Go arithmetic can wrap,
the backing slice is a `List (Nat × α)` of (key, value) entries, and the
unbounded Go probe loops become fuelled recursions returning `Option`
(`none` means the Go loop would not terminate).  The Go `int` fields that can
go negative (`size`) are `Int`.

The tiered cache (`TypeMap`) from `src/typemap.go` is embedded as a
sequential state machine; its concurrency primitives (`sync.Map`,
`sync.Once`, atomics) are modelled by their sequential semantics.
-/

namespace PhiMapModel

/-- The modulus of Go `uint64` arithmetic. -/
def U64 : Nat := 18446744073709551616

/-- `INT_PHI` from src/phimap.go line 31: the key scrambling constant `0x9E3779B9`. -/
def INT_PHI : Nat := 0x9E3779B9

/-- `phiMix` from src/phimap.go lines 36-39: `h := x * INT_PHI; return h ^ (h >> 16)`,
with the multiplication wrapping modulo `2^64` as in Go `uint64` arithmetic.
The xor and shift never leave `[0, 2^64)` so no further reduction is needed. -/
def phiMix (x : Nat) : Nat :=
  let h := (x * INT_PHI) % U64
  h ^^^ (h >>> 16)

/-- `nextPowerOfTwo` from src/phimap.go lines 41-54 (bit-smearing cascade).
The Go code operates on a nonnegative `int`; inputs here are the small
positive sizes the repository actually passes. -/
def nextPowerOfTwo (x : Nat) : Nat :=
  if x = 0 then 1
  else
    let x1 := x - 1
    let x2 := x1 ||| (x1 >>> 1)
    let x3 := x2 ||| (x2 >>> 2)
    let x4 := x3 ||| (x3 >>> 4)
    let x5 := x4 ||| (x4 >>> 8)
    let x6 := x5 ||| (x5 >>> 16)
    x6 + 1

/-- `arraySize` from src/phimap.go lines 56-63 specialised to the constant fill
factor 0.6: `math.Ceil(float64(exp)/0.6)` equals `⌈5*exp/3⌉ = (5*exp+2)/3`
exactly for every size the repository passes (the float64 value of 0.6 is
below 3/5 by less than 2^-53, which cannot move the ceiling at these
magnitudes). -/
def arraySize (exp : Nat) : Nat :=
  let s := nextPowerOfTwo ((5 * exp + 2) / 3)
  if s < 2 then 2 else s

/-- `calcThreshold` from src/phimap.go lines 65-67 specialised to fill factor
0.6: `math.Floor(float64(capacity)*0.6)` equals `3*capacity/5` in natural
division for every capacity below `2^53` (capacities here are small powers of
two). -/
def calcThreshold (capacity : Nat) : Nat := 3 * capacity / 5

/-- `PhiMap` from src/phimap.go lines 93-101.  `data` holds the
(key, value) entries (`Entry{K,V}`); a slot is free iff its key is 0
(`FREE_KEY`).  The constant `fillFactor` field is inlined into
`calcThreshold`; `dptr` is a Go-level alias of `data`.  `size` is a Go `int`
and may go negative, hence `Int`. -/
structure PhiMap (α : Type) where
  data : List (Nat × α)
  threshold : Nat
  size : Int
  mask : Nat
  deriving Repr, DecidableEq

variable {α : Type}

/-- The key stored at slot `i` (`*m.getK(i)`); reads out of range never occur
in the modelled executions. -/
def keyAt (d : List (Nat × α)) (i : Nat) : Nat :=
  (d[i]?.map Prod.fst).getD 0

/-- The value stored at slot `i` (`*m.getV(i)`). -/
def valAt [Inhabited α] (d : List (Nat × α)) (i : Nat) : α :=
  (d[i]?.map Prod.snd).getD default

/-- Outcome of a probe loop: the slot index where the key was matched, or the
free slot index where the scan stopped. -/
inductive ProbeHit where
  | found : Nat → ProbeHit
  | free : Nat → ProbeHit
  deriving Repr, DecidableEq

/-- The probe loop shared by `Get` (lines 120-137), `Has` (141-158) and
`Delete` (218-233): mask the pointer, compare the slot key with `key` first,
then with the sentinel 0, else advance by one.  `fuel` bounds the number of
iterations; `none` models a non-terminating Go loop. -/
def probeLoop (d : List (Nat × α)) (mask key : Nat) : Nat → Nat → Option ProbeHit
  | 0, _ => none
  | fuel + 1, ptr =>
    let i := ptr &&& mask
    let k := keyAt d i
    if k = key then some (.found i)
    else if k = 0 then some (.free i)
    else probeLoop d mask key fuel (i + 1)

/-- The probe loop of `Set` (src/phimap.go lines 161-182), which tests the
sentinel before the key match (the opposite order of `Get`). -/
def probeLoopIns (d : List (Nat × α)) (mask key : Nat) : Nat → Nat → Option ProbeHit
  | 0, _ => none
  | fuel + 1, ptr =>
    let i := ptr &&& mask
    let k := keyAt d i
    if k = 0 then some (.free i)
    else if k = key then some (.found i)
    else probeLoopIns d mask key fuel (i + 1)

/-- The free-slot-only probe loop inlined in `rehash` (src/phimap.go lines
202-213). -/
def freeLoop (d : List (Nat × α)) (mask : Nat) : Nat → Nat → Option Nat
  | 0, _ => none
  | fuel + 1, ptr =>
    let i := ptr &&& mask
    if keyAt d i = 0 then some i
    else freeLoop d mask fuel (i + 1)

/-- The probe of `Get`/`Has`/`Delete` starting at `phiMix key`, with fuel equal
to the capacity (one full sweep of the table; the Go loop either stops within
one sweep or never stops). -/
def PhiMap.probe (m : PhiMap α) (key : Nat) : Option ProbeHit :=
  probeLoop m.data m.mask key m.data.length (phiMix key)

/-- `Get` from src/phimap.go lines 120-137.  `some v` is the returned value
(`default` stands for the zero value of `T` returned on a free-slot hit);
`none` models a non-terminating probe. -/
def PhiMap.get [Inhabited α] (m : PhiMap α) (key : Nat) : Option α :=
  (m.probe key).map fun
    | .found i => valAt m.data i
    | .free _ => default

/-- `Has` from src/phimap.go lines 141-158. -/
def PhiMap.has (m : PhiMap α) (key : Nat) : Option Bool :=
  (m.probe key).map fun
    | .found _ => true
    | .free _ => false

/-- One re-insertion of `rehash`'s COPY loop: find the first free slot from
`phiMix k` and write the entry there. -/
def insertFresh (d : List (Nat × α)) (mask k : Nat) (v : α) : Option (List (Nat × α)) :=
  (freeLoop d mask d.length (phiMix k)).map fun i => d.set i (k, v)

/-- `rehash` from src/phimap.go lines 184-215: double the capacity, recompute
threshold and mask, then re-insert every live entry of the old store into a
fresh store, rebuilding `size` incrementally. -/
def PhiMap.rehash [Inhabited α] (m : PhiMap α) : Option (PhiMap α) :=
  let newCapacity := m.data.length * 2
  let thr := calcThreshold newCapacity
  let msk := newCapacity - 1
  let step := fun (acc : Option (List (Nat × α) × Int)) (e : Nat × α) =>
    acc.bind fun ds =>
      if e.1 = 0 then some ds
      else (insertFresh ds.1 msk e.1 e.2).map fun d2 => (d2, ds.2 + 1)
  (m.data.foldl step (some (List.replicate newCapacity (0, default), 0))).map
    fun ds => { data := ds.1, threshold := thr, size := ds.2, mask := msk }

/-- `Set` from src/phimap.go lines 161-182: probe (sentinel test first); on a
free slot write the entry and either rehash (when `size >= threshold`) or
increment `size`; on a key match overwrite the value in place. -/
def PhiMap.set [Inhabited α] (m : PhiMap α) (key : Nat) (v : α) : Option (PhiMap α) :=
  (probeLoopIns m.data m.mask key m.data.length (phiMix key)).bind fun
    | .free i =>
      let d := m.data.set i (key, v)
      if m.size ≥ (m.threshold : Int) then PhiMap.rehash { m with data := d }
      else some { m with data := d, size := m.size + 1 }
    | .found i => some { m with data := m.data.set i (key, v) }

/-- Writing the sentinel entry into slot `i` (`*getK(last) = FREE_KEY;
*getV(last) = zero`). -/
def clearAt [Inhabited α] (d : List (Nat × α)) (i : Nat) : List (Nat × α) :=
  d.set i (0, default)

/-- The inner scan of `shiftKeys` (src/phimap.go lines 241-261): starting at
`pos`, stop with `Sum.inr` (cleared table) on a free slot, stop with
`Sum.inl p` on an entry whose home slot lies outside the cyclic interval
`(last, p]` (the Go `break`, after which the entry at `p` is moved to `last`),
else keep scanning. -/
def shiftInner [Inhabited α] (d : List (Nat × α)) (mask last : Nat) :
    Nat → Nat → Option (Sum Nat (List (Nat × α)))
  | 0, _ => none
  | fuel + 1, pos =>
    let p := pos &&& mask
    let k := keyAt d p
    if k = 0 then some (Sum.inr (clearAt d last))
    else
      let slot := phiMix k &&& mask
      let brk := if last ≤ p then slot ≤ last ∨ p < slot else slot ≤ last ∧ p < slot
      if brk then some (Sum.inl p)
      else shiftInner d mask last fuel (p + 1)

/-- The outer loop of `shiftKeys` (src/phimap.go lines 235-265): `pos` is the
value of Go's `pos` at the loop head (assigned to `last`); on an inner break
at `p` the entry at `p` is copied into `last` and the loop continues from
`p`. -/
def shiftLoop [Inhabited α] (d : List (Nat × α)) (mask : Nat) :
    Nat → Nat → Option (List (Nat × α))
  | 0, _ => none
  | fuel + 1, pos =>
    match shiftInner d mask pos d.length (pos + 1) with
    | none => none
    | some (Sum.inr d2) => some d2
    | some (Sum.inl p) =>
      shiftLoop (d.set pos (d[p]?.getD (0, default))) mask fuel p

/-- `shiftKeys` entered at slot `i`, with enough fuel for a full sweep. -/
def PhiMap.shiftKeys [Inhabited α] (m : PhiMap α) (i : Nat) : Option (List (Nat × α)) :=
  shiftLoop m.data m.mask (m.data.length + 1) i

/-- `Delete` from src/phimap.go lines 218-233: probe (key match first); on a
match run `shiftKeys` and decrement `size`; on a sentinel hit do nothing. -/
def PhiMap.del [Inhabited α] (m : PhiMap α) (key : Nat) : Option (PhiMap α) :=
  (m.probe key).bind fun
    | .found i => (m.shiftKeys i).map fun d => { m with data := d, size := m.size - 1 }
    | .free _ => some m

/-- `Copy` from src/phimap.go lines 269-291: same capacity (doubled when
`size >= threshold`), the `threshold` field copied unchanged, then every live
source entry re-inserted via `Set`. -/
def PhiMap.copy [Inhabited α] (m : PhiMap α) : Option (PhiMap α) :=
  let capacity := if m.size ≥ (m.threshold : Int) then m.data.length * 2 else m.data.length
  let init : PhiMap α :=
    { data := List.replicate capacity (0, default), threshold := m.threshold,
      size := 0, mask := capacity - 1 }
  m.data.foldl (fun acc e =>
    acc.bind fun mm => if e.1 = 0 then some mm else mm.set e.1 e.2) (some init)

/-- `NewPhiMap` from src/phimap.go lines 76-89 (initial size hint 32, fill
factor 0.6: capacity 64). -/
def newPhiMap [Inhabited α] : PhiMap α :=
  let capacity := arraySize 32
  { data := List.replicate capacity (0, default), threshold := calcThreshold capacity,
    size := 0, mask := capacity - 1 }

/-- `Keys` from src/phimap.go lines 294-304: the keys of the live
(non-sentinel) slots in slot order. -/
def PhiMap.keysList (m : PhiMap α) : List Nat :=
  (m.data.filter fun e => e.1 ≠ 0).map Prod.fst

/-- A client-visible table operation (`Set` or `Delete`). -/
inductive Op (α : Type) where
  | set : Nat → α → Op α
  | del : Nat → Op α
  deriving Repr, DecidableEq

/-- Run one operation. -/
def applyOp [Inhabited α] (m : PhiMap α) : Op α → Option (PhiMap α)
  | .set k v => m.set k v
  | .del k => m.del k

/-- Run a sequence of operations left to right. -/
def runOps [Inhabited α] (m : PhiMap α) (ops : List (Op α)) : Option (PhiMap α) :=
  ops.foldl (fun acc op => acc.bind (applyOp · op)) (some m)

/-! ## Cyclic index arithmetic

Linear probing walks the slot circle `0, 1, …, c-1, 0, …`.  `cdist c a b`
is the number of forward steps from slot `a` to slot `b`. -/

/-- Forward cyclic distance from `a` to `b` on a circle of `c` slots. -/
def cdist (c a b : Nat) : Nat := (c + b - a) % c

theorem cdist_closed {c a b : Nat} (ha : a < c) (hb : b < c) :
    cdist c a b = if a ≤ b then b - a else c + b - a := by
  unfold cdist
  rcases le_or_lt a b with h | h
  · have e : c + b - a = (b - a) + c := by omega
    rw [if_pos h, e, Nat.add_mod_right, Nat.mod_eq_of_lt (by omega)]
  · rw [if_neg (by omega), Nat.mod_eq_of_lt (by omega)]

theorem cdist_lt {c a b : Nat} (ha : a < c) (hb : b < c) : cdist c a b < c := by
  rw [cdist_closed ha hb]; split <;> omega

theorem cdist_self {c a : Nat} (ha : a < c) : cdist c a a = 0 := by
  rw [cdist_closed ha ha]; simp

theorem cdist_add {c a b : Nat} (ha : a < c) (hb : b < c) :
    (a + cdist c a b) % c = b := by
  rw [cdist_closed ha hb]
  rcases le_or_lt a b with h | h
  · rw [if_pos h]
    have e : a + (b - a) = b := by omega
    rw [e, Nat.mod_eq_of_lt hb]
  · rw [if_neg (by omega)]
    have e : a + (c + b - a) = b + c := by omega
    rw [e, Nat.add_mod_right, Nat.mod_eq_of_lt hb]

theorem cdist_inj {c a x y : Nat} (ha : a < c) (hx : x < c) (hy : y < c)
    (h : cdist c a x = cdist c a y) : x = y := by
  have := cdist_add ha hx
  have := cdist_add ha hy
  rw [h] at *
  omega

/-- The slot reached after `n` forward steps from `a`. -/
theorem cdist_of_steps {c a n : Nat} (ha : a < c) (hn : n < c) :
    cdist c a ((a + n) % c) = n := by
  have hlt : (a + n) % c < c := Nat.mod_lt _ (by omega)
  rw [cdist_closed ha hlt]
  rcases Nat.lt_or_ge (a + n) c with h | h
  · rw [Nat.mod_eq_of_lt h]; split <;> omega
  · have e : (a + n) % c = a + n - c := by
      have : a + n - c < c := by omega
      conv_lhs => rw [show a + n = (a + n - c) + c by omega]
      rw [Nat.add_mod_right, Nat.mod_eq_of_lt this]
    rw [e]; split <;> omega

/-- Membership of `x` in the cyclic half-open interval `(a, b]`, phrased with
the raw comparisons used by `shiftKeys`. -/
def cyclicMem (a x b : Nat) : Prop :=
  if a ≤ b then a < x ∧ x ≤ b else a < x ∨ x ≤ b

instance (a x b : Nat) : Decidable (cyclicMem a x b) :=
  inferInstanceAs (Decidable (if a ≤ b then a < x ∧ x ≤ b else a < x ∨ x ≤ b))

theorem cyclicMem_iff_cdist {c a x b : Nat} (ha : a < c) (hx : x < c) (hb : b < c) :
    cyclicMem a x b ↔ (0 < cdist c a x ∧ cdist c a x ≤ cdist c a b) := by
  unfold cyclicMem
  rw [cdist_closed ha hx, cdist_closed ha hb]
  split_ifs <;> omega

/-! ## Table-shape predicates -/

/-- Slot `i` holds a live entry (its key differs from the sentinel 0). -/
def occupied (d : List (Nat × α)) (i : Nat) : Prop := keyAt d i ≠ 0

instance (d : List (Nat × α)) (i : Nat) : Decidable (occupied d i) := by
  unfold occupied; infer_instance

/-- The home slot of key `k` in a table of capacity `c`: where its probe
sequence starts. -/
def home (c k : Nat) : Nat := phiMix k % c

/-- Number of live slots. -/
def countOcc (d : List (Nat × α)) : Nat :=
  ((Finset.range d.length).filter fun i => keyAt d i ≠ 0).card

/-- Live keys are pairwise distinct across slots. -/
abbrev dataNodup (d : List (Nat × α)) : Prop :=
  ∀ i < d.length, ∀ j < d.length, i ≠ j →
    occupied d i → occupied d j → keyAt d i ≠ keyAt d j

/-- Unbroken probe chains: no free slot strictly between a live key's home
slot and the slot actually holding it (walking forward cyclically). -/
abbrev dataChain (d : List (Nat × α)) : Prop :=
  ∀ i < d.length, occupied d i →
    ∀ y < d.length, ¬ occupied d y →
    cdist d.length (home d.length (keyAt d i)) i ≤
      cdist d.length (home d.length (keyAt d i)) y

/-- The structural invariant of every reachable `PhiMap` (for operation
sequences that never pass the sentinel key to `Set`/`Delete`):
power-of-two capacity, coherent mask, pairwise distinct live keys, unbroken
probe chains, `size` counting exactly the live slots, and enough headroom
(`size ≤ threshold < capacity`) so that every probe finds a free slot. -/
structure Inv (m : PhiMap α) : Prop where
  cpow : ∃ t, 0 < t ∧ m.data.length = 2 ^ t
  maskEq : m.mask = m.data.length - 1
  nodup : dataNodup m.data
  chain : dataChain m.data
  sizeEq : m.size = (countOcc m.data : Int)
  sizeLe : countOcc m.data ≤ m.threshold
  thLt : m.threshold < m.data.length

/-! ## Characterisation of the probe loops -/

/-- The probe loop stops at slot `i` (key match or sentinel). -/
def stopP (d : List (Nat × α)) (key i : Nat) : Prop :=
  keyAt d i = key ∨ keyAt d i = 0

instance (d : List (Nat × α)) (key i : Nat) : Decidable (stopP d key i) :=
  inferInstanceAs (Decidable (keyAt d i = key ∨ keyAt d i = 0))

/-- The hit the probe loop reports at a stopping slot (`Get`/`Has`/`Delete`
order: the key match wins over the sentinel). -/
def mkHit (d : List (Nat × α)) (key i : Nat) : ProbeHit :=
  if keyAt d i = key then .found i else .free i

theorem probeLoop_first {d : List (Nat × α)} {key c : Nat}
    (hmask : ∀ x : Nat, x &&& (c - 1) = x % c) (hc : 0 < c)
    {n ptr fuel : Nat}
    (hstop : stopP d key ((ptr % c + n) % c))
    (hbefore : ∀ mm < n, ¬ stopP d key ((ptr % c + mm) % c))
    (hfuel : n < fuel) :
    probeLoop d (c - 1) key fuel ptr = some (mkHit d key ((ptr % c + n) % c)) := by
  induction fuel generalizing n ptr with
  | zero => omega
  | succ f ih =>
    rw [probeLoop]
    simp only [hmask]
    rcases Nat.eq_zero_or_pos n with hn | hn
    · subst hn
      have hpos : (ptr % c + 0) % c = ptr % c := by
        rw [Nat.add_zero, Nat.mod_mod_of_dvd _ (dvd_refl c)]
      rw [hpos] at hstop ⊢
      rcases hstop with hk | hk
      · rw [if_pos hk, mkHit, if_pos hk]
      · by_cases hk2 : keyAt d (ptr % c) = key
        · rw [if_pos hk2, mkHit, if_pos hk2]
        · rw [if_neg hk2, if_pos hk, mkHit, if_neg hk2]
    · have h0 := hbefore 0 hn
      have hpos : (ptr % c + 0) % c = ptr % c := by
        rw [Nat.add_zero, Nat.mod_mod_of_dvd _ (dvd_refl c)]
      rw [hpos] at h0
      rw [stopP] at h0
      push_neg at h0
      rw [if_neg h0.1, if_neg h0.2]
      have hshift : ∀ mm : Nat, ((ptr % c + 1) % c + mm) % c = (ptr % c + (mm + 1)) % c := by
        intro mm
        rw [Nat.mod_add_mod]
        congr 1
        omega
      have hstop2 : stopP d key (((ptr % c + 1) % c + (n - 1)) % c) := by
        rw [hshift]
        have : n - 1 + 1 = n := by omega
        rw [this]; exact hstop
      have hbefore2 : ∀ mm < n - 1, ¬ stopP d key (((ptr % c + 1) % c + mm) % c) := by
        intro mm hmm
        rw [hshift]
        exact hbefore (mm + 1) (by omega)
      have := ih hstop2 hbefore2 (by omega)
      have hn1 : n - 1 + 1 = n := by omega
      rw [this, hshift, hn1]

/-- Analogue of `probeLoop_first` for the `Set` probe order.  For a non-zero
key the two orders agree. -/
theorem probeLoopIns_eq {d : List (Nat × α)} {key mask : Nat} (hkey : key ≠ 0) :
    ∀ fuel ptr, probeLoopIns d mask key fuel ptr = probeLoop d mask key fuel ptr := by
  intro fuel
  induction fuel with
  | zero => intro ptr; rfl
  | succ f ih =>
    intro ptr
    rw [probeLoopIns, probeLoop]
    by_cases h0 : keyAt d (ptr &&& mask) = 0
    · rw [if_pos h0, if_neg (by rw [h0]; exact fun h => hkey h.symm), if_pos h0]
    · rw [if_neg h0]
      by_cases hk : keyAt d (ptr &&& mask) = key
      · rw [if_pos hk, if_pos hk]
      · rw [if_neg hk, if_neg hk, if_neg h0, ih]

/-- Characterisation of the free-slot loop inlined in `rehash`. -/
theorem freeLoop_first {d : List (Nat × α)} {c : Nat}
    (hmask : ∀ x : Nat, x &&& (c - 1) = x % c) (hc : 0 < c)
    {n ptr fuel : Nat}
    (hstop : keyAt d ((ptr % c + n) % c) = 0)
    (hbefore : ∀ mm < n, keyAt d ((ptr % c + mm) % c) ≠ 0)
    (hfuel : n < fuel) :
    freeLoop d (c - 1) fuel ptr = some ((ptr % c + n) % c) := by
  induction fuel generalizing n ptr with
  | zero => omega
  | succ f ih =>
    rw [freeLoop]
    simp only [hmask]
    rcases Nat.eq_zero_or_pos n with hn | hn
    · subst hn
      have hpos : (ptr % c + 0) % c = ptr % c := by
        rw [Nat.add_zero, Nat.mod_mod_of_dvd _ (dvd_refl c)]
      rw [hpos] at hstop ⊢
      rw [if_pos hstop]
    · have h0 := hbefore 0 hn
      have hpos : (ptr % c + 0) % c = ptr % c := by
        rw [Nat.add_zero, Nat.mod_mod_of_dvd _ (dvd_refl c)]
      rw [hpos] at h0
      rw [if_neg h0]
      have hshift : ∀ mm : Nat, ((ptr % c + 1) % c + mm) % c = (ptr % c + (mm + 1)) % c := by
        intro mm
        rw [Nat.mod_add_mod]
        congr 1
        omega
      have hstop2 : keyAt d (((ptr % c + 1) % c + (n - 1)) % c) = 0 := by
        rw [hshift]
        have : n - 1 + 1 = n := by omega
        rw [this]; exact hstop
      have hbefore2 : ∀ mm < n - 1, keyAt d (((ptr % c + 1) % c + mm) % c) ≠ 0 := by
        intro mm hmm
        rw [hshift]
        exact hbefore (mm + 1) (by omega)
      have := ih hstop2 hbefore2 (by omega)
      have hn1 : n - 1 + 1 = n := by omega
      rw [this, hshift, hn1]

theorem home_lt {c k : Nat} (hc : 0 < c) : home c k < c := Nat.mod_lt _ hc

theorem Inv.len_pos {m : PhiMap α} (h : Inv m) : 0 < m.data.length := by
  obtain ⟨t, _, hl⟩ := h.cpow
  rw [hl]; exact Nat.pos_pow_of_pos t (by omega)

theorem Inv.mask_and {m : PhiMap α} (h : Inv m) :
    ∀ x : Nat, x &&& m.mask = x % m.data.length := by
  obtain ⟨t, _, hl⟩ := h.cpow
  intro x
  rw [h.maskEq, hl, Nat.and_pow_two_sub_one_eq_mod]

theorem exists_free_of_countOcc_lt {d : List (Nat × α)} (h : countOcc d < d.length) :
    ∃ y, y < d.length ∧ keyAt d y = 0 := by
  by_contra hno
  push_neg at hno
  have he : ((Finset.range d.length).filter fun i => keyAt d i ≠ 0) = Finset.range d.length := by
    apply Finset.filter_true_of_mem
    intro i hi
    exact hno i (Finset.mem_range.mp hi)
  rw [countOcc, he, Finset.card_range] at h
  omega

theorem Inv.exists_free {m : PhiMap α} (h : Inv m) :
    ∃ y, y < m.data.length ∧ keyAt m.data y = 0 :=
  exists_free_of_countOcc_lt (by
    have := h.sizeLe
    have := h.thLt
    omega)

/-- The probe of any key on an invariant-satisfying table stops at the first
slot (in probe order from the key's home slot) holding the key or the
sentinel. -/
theorem probe_spec (m : PhiMap α) (h : Inv m) (key : Nat) :
    ∃ n, n < m.data.length ∧
      (∀ mm < n,
        ¬ stopP m.data key ((home m.data.length key + mm) % m.data.length)) ∧
      stopP m.data key ((home m.data.length key + n) % m.data.length) ∧
      m.probe key =
        some (mkHit m.data key ((home m.data.length key + n) % m.data.length)) := by
  classical
  set c := m.data.length with hc
  have hcpos : 0 < c := h.len_pos
  obtain ⟨y, hy, hy0⟩ := h.exists_free
  have hex : ∃ n, stopP m.data key ((home c key + n) % c) := by
    refine ⟨cdist c (home c key) y, ?_⟩
    rw [cdist_add (home_lt hcpos) hy]
    exact Or.inr hy0
  let N := Nat.find hex
  have hNstop : stopP m.data key ((home c key + N) % c) := Nat.find_spec hex
  have hNmin : ∀ mm < N, ¬ stopP m.data key ((home c key + mm) % c) := fun mm hmm =>
    Nat.find_min hex hmm
  have hNlt : N < c := by
    have : N ≤ cdist c (home c key) y := by
      apply Nat.find_min'
      rw [cdist_add (home_lt hcpos) hy]
      exact Or.inr hy0
    have := cdist_lt (c := c) (home_lt (k := key) hcpos) hy
    omega
  refine ⟨N, hNlt, hNmin, hNstop, ?_⟩
  have hmod : phiMix key % c = home c key := rfl
  have := @probeLoop_first α m.data key c
    (fun x => by rw [← h.maskEq]; exact h.mask_and x) hcpos N (phiMix key) c
    (by rw [hmod]; exact hNstop) (by rw [hmod]; exact hNmin) hNlt
  rw [PhiMap.probe, h.maskEq, this, hmod]

/-- A live key is found by the probe, at its (unique) slot. -/
theorem probe_found {m : PhiMap α} (h : Inv m) {key x : Nat} (hx : x < m.data.length)
    (hkx : keyAt m.data x = key) (hkey : key ≠ 0) :
    m.probe key = some (.found x) := by
  set c := m.data.length with hc
  have hcpos : 0 < c := h.len_pos
  obtain ⟨n, hn, hmin, hstop, hprobe⟩ := probe_spec m h key
  set pn := (home c key + n) % c with hpn
  have hpnlt : pn < c := Nat.mod_lt _ hcpos
  have hdn : cdist c (home c key) pn = n := cdist_of_steps (home_lt hcpos) hn
  have hpx : pn = x := by
    rcases hstop with hs | hs
    · by_contra hne
      exact h.nodup pn hpnlt x hx hne (by rw [occupied, hs]; exact hkey)
        (by rw [occupied, hkx]; exact hkey) (by rw [hs, hkx])
    · exfalso
      have hxocc : occupied m.data x := by rw [occupied, hkx]; exact hkey
      have hfree : ¬ occupied m.data pn := by rw [occupied, hs]; simp
      have hchain := h.chain x hx hxocc pn hpnlt hfree
      rw [hkx, ← hc] at hchain
      have hdx : cdist c (home c key) x ≥ n := by
        by_contra hlt
        push_neg at hlt
        have := hmin _ hlt
        rw [cdist_add (home_lt hcpos) hx] at this
        exact this (Or.inl hkx)
      rw [hdn] at hchain
      have : cdist c (home c key) x = n := by omega
      have : x = pn := cdist_inj (home_lt hcpos) hx hpnlt (by rw [this, hdn])
      rw [this] at hkx
      rw [hkx] at hs
      exact hkey hs
  rw [hprobe, hpx.symm, mkHit]
  rcases hstop with hs | hs
  · rw [if_pos hs]
  · rw [hpx] at hs
    rw [hkx] at hs
    exact absurd hs hkey

/-- An absent key's probe stops at the first free slot after its home; every
slot strictly before it on the probe path is occupied, and no free slot is
closer to the home. -/
theorem probe_absent {m : PhiMap α} (h : Inv m) {key : Nat} (hkey : key ≠ 0)
    (habs : ∀ x, x < m.data.length → keyAt m.data x ≠ key) :
    ∃ f, f < m.data.length ∧ keyAt m.data f = 0 ∧
      m.probe key = some (.free f) ∧
      (∀ mm < cdist m.data.length (home m.data.length key) f,
        occupied m.data ((home m.data.length key + mm) % m.data.length)) ∧
      (∀ y, y < m.data.length → keyAt m.data y = 0 →
        cdist m.data.length (home m.data.length key) f ≤
          cdist m.data.length (home m.data.length key) y) := by
  set c := m.data.length with hc
  have hcpos : 0 < c := h.len_pos
  obtain ⟨n, hn, hmin, hstop, hprobe⟩ := probe_spec m h key
  set pn := (home c key + n) % c with hpn
  have hpnlt : pn < c := Nat.mod_lt _ hcpos
  have hdn : cdist c (home c key) pn = n := cdist_of_steps (home_lt hcpos) hn
  have hf0 : keyAt m.data pn = 0 := by
    rcases hstop with hs | hs
    · exact absurd hs (habs pn hpnlt)
    · exact hs
  refine ⟨pn, hpnlt, hf0, ?_, ?_, ?_⟩
  · rw [hprobe, mkHit, if_neg (by rw [hf0]; exact fun e => hkey e.symm)]
  · intro mm hmm
    rw [hdn] at hmm
    have := hmin mm hmm
    rw [stopP] at this
    push_neg at this
    exact this.2
  · intro y hy hy0
    rw [hdn]
    by_contra hlt
    push_neg at hlt
    have := hmin _ hlt
    rw [cdist_add (home_lt hcpos) hy] at this
    exact this (Or.inr hy0)

/-- `Get` and `Has` on a live key return its value and `true`. -/
theorem get_of_mem [Inhabited α] {m : PhiMap α} (h : Inv m) {key x : Nat}
    (hx : x < m.data.length) (hkx : keyAt m.data x = key) (hkey : key ≠ 0) :
    m.get key = some (valAt m.data x) ∧ m.has key = some true := by
  have := probe_found h hx hkx hkey
  constructor
  · rw [PhiMap.get, this]; rfl
  · rw [PhiMap.has, this]; rfl

/-- `Get` and `Has` on an absent key return the zero value and `false`. -/
theorem get_of_absent [Inhabited α] {m : PhiMap α} (h : Inv m) {key : Nat}
    (hkey : key ≠ 0) (habs : ∀ x, x < m.data.length → keyAt m.data x ≠ key) :
    m.get key = some default ∧ m.has key = some false := by
  obtain ⟨f, _, _, hp, _, _⟩ := probe_absent h hkey habs
  constructor
  · rw [PhiMap.get, hp]; rfl
  · rw [PhiMap.has, hp]; rfl

/-! ## Pointwise effect of slot writes, and live-slot counting -/

theorem keyAt_set_self {d : List (Nat × α)} {i : Nat} (hi : i < d.length) (e : Nat × α) :
    keyAt (d.set i e) i = e.1 := by
  rw [keyAt, List.getElem?_set_self hi]
  rfl

theorem keyAt_set_ne {d : List (Nat × α)} {i j : Nat} (hij : i ≠ j) (e : Nat × α) :
    keyAt (d.set i e) j = keyAt d j := by
  rw [keyAt, keyAt, List.getElem?_set_ne hij]

theorem valAt_set_self [Inhabited α] {d : List (Nat × α)} {i : Nat}
    (hi : i < d.length) (e : Nat × α) : valAt (d.set i e) i = e.2 := by
  rw [valAt, List.getElem?_set_self hi]
  rfl

theorem valAt_set_ne [Inhabited α] {d : List (Nat × α)} {i j : Nat} (hij : i ≠ j)
    (e : Nat × α) : valAt (d.set i e) j = valAt d j := by
  rw [valAt, valAt, List.getElem?_set_ne hij]

theorem countOcc_eq_sum (d : List (Nat × α)) :
    countOcc d = ∑ j ∈ Finset.range d.length, if keyAt d j ≠ 0 then 1 else 0 := by
  rw [countOcc, Finset.card_filter]

theorem countOcc_set {d : List (Nat × α)} {i : Nat} (hi : i < d.length) (e : Nat × α) :
    countOcc (d.set i e) + (if keyAt d i ≠ 0 then 1 else 0)
      = countOcc d + (if e.1 ≠ 0 then 1 else 0) := by
  rw [countOcc_eq_sum, countOcc_eq_sum, List.length_set]
  rw [← Finset.sum_erase_add _ _ (Finset.mem_range.mpr hi),
    ← Finset.sum_erase_add _ _ (Finset.mem_range.mpr hi)]
  have hpt : ∀ j ∈ (Finset.range d.length).erase i,
      (if keyAt (d.set i e) j ≠ 0 then 1 else 0) = if keyAt d j ≠ 0 then (1 : Nat) else 0 := by
    intro j hj
    rw [keyAt_set_ne (Ne.symm (Finset.ne_of_mem_erase hj))]
  rw [Finset.sum_congr rfl hpt, keyAt_set_self hi]
  omega

theorem countOcc_le_length (d : List (Nat × α)) : countOcc d ≤ d.length := by
  rw [countOcc]
  calc ((Finset.range d.length).filter fun i => keyAt d i ≠ 0).card
      ≤ (Finset.range d.length).card := Finset.card_filter_le _ _
    _ = d.length := Finset.card_range _

/-! ## Inserting a fresh key at the first free slot on its probe path -/

/-- Writing a fresh non-zero key into a free slot whose whole probe path from
the key's home is occupied preserves distinctness and the chain invariant and
adds one live slot. -/
theorem insert_free_spec {d : List (Nat × α)} {key f : Nat} (v : α)
    (hf : f < d.length) (hf0 : keyAt d f = 0) (hkey : key ≠ 0)
    (habs : ∀ x, x < d.length → keyAt d x ≠ key)
    (hpath : ∀ mm < cdist d.length (home d.length key) f,
      occupied d ((home d.length key + mm) % d.length))
    (hnodup : dataNodup d) (hchain : dataChain d) :
    dataNodup (d.set f (key, v)) ∧ dataChain (d.set f (key, v)) ∧
      countOcc (d.set f (key, v)) = countOcc d + 1 := by
  have hc : 0 < d.length := by omega
  refine ⟨?_, ?_, ?_⟩
  · intro i hi j hj hij hoi hoj
    rw [List.length_set] at hi hj
    by_cases hif : i = f <;> by_cases hjf : j = f
    · exact absurd (hif.trans hjf.symm) hij
    · subst hif
      rw [keyAt_set_self hf, keyAt_set_ne (fun e => hjf e.symm)]
      exact fun e => habs j hj e.symm
    · subst hjf
      rw [keyAt_set_self hf, keyAt_set_ne (fun e => hif e.symm)]
      exact habs i hi
    · rw [keyAt_set_ne (fun e => hif e.symm), keyAt_set_ne (fun e => hjf e.symm)]
      rw [occupied, keyAt_set_ne (fun e => hif e.symm)] at hoi
      rw [occupied, keyAt_set_ne (fun e => hjf e.symm)] at hoj
      exact hnodup i hi j hj hij hoi hoj
  · intro i hi hoi y hy hoy
    rw [List.length_set] at hi hy ⊢
    have hyf : y ≠ f := by
      intro e
      subst e
      rw [occupied, keyAt_set_self hf] at hoy
      exact hoy hkey
    rw [occupied, keyAt_set_ne (fun e => hyf e.symm)] at hoy
    by_cases hif : i = f
    · subst hif
      rw [keyAt_set_self hf]
      by_contra hlt
      push_neg at hlt
      have hylt := cdist_lt (c := d.length) (home_lt (k := key) hc) hy
      have hmm := hpath (cdist d.length (home d.length key) y) hlt
      rw [cdist_add (home_lt hc) hy] at hmm
      exact hoy hmm
    · rw [keyAt_set_ne (fun e => hif e.symm)]
      rw [occupied, keyAt_set_ne (fun e => hif e.symm)] at hoi
      exact hchain i hi hoi y hy hoy
  · have := countOcc_set hf (e := (key, v))
    rw [hf0] at this
    simp only [ne_eq, not_true_eq_false, if_false, if_neg] at this
    rw [if_pos hkey] at this
    omega

/-! ## Logical contents of a table -/

/-- Some slot holds key `k`. -/
def hasK (d : List (Nat × α)) (k : Nat) : Prop :=
  ∃ x, x < d.length ∧ keyAt d x = k

/-- Some slot holds the entry `(k, v)`. -/
def hasKV [Inhabited α] (d : List (Nat × α)) (k : Nat) (v : α) : Prop :=
  ∃ x, x < d.length ∧ keyAt d x = k ∧ valAt d x = v

theorem keyAt_eq_getElem {d : List (Nat × α)} {i : Nat} (hi : i < d.length) :
    keyAt d i = (d[i]).1 := by
  rw [keyAt, List.getElem?_eq_getElem hi]
  rfl

theorem valAt_eq_getElem [Inhabited α] {d : List (Nat × α)} {i : Nat} (hi : i < d.length) :
    valAt d i = (d[i]).2 := by
  rw [valAt, List.getElem?_eq_getElem hi]
  rfl

theorem hasKV_iff_mem [Inhabited α] {d : List (Nat × α)} {k : Nat} {v : α} :
    hasKV d k v ↔ (k, v) ∈ d := by
  constructor
  · rintro ⟨x, hx, hk, hv⟩
    rw [keyAt_eq_getElem hx] at hk
    rw [valAt_eq_getElem hx] at hv
    have : d[x] = (k, v) := Prod.ext hk hv
    rw [← this]
    exact List.getElem_mem hx
  · intro hm
    obtain ⟨x, hx, he⟩ := List.mem_iff_getElem.mp hm
    exact ⟨x, hx, by rw [keyAt_eq_getElem hx, he], by rw [valAt_eq_getElem hx, he]⟩

/-- Tables with the same keys in the same slots share all key-shape
predicates. -/
theorem congr_keys {d1 d2 : List (Nat × α)} (hlen : d1.length = d2.length)
    (hk : ∀ j, keyAt d1 j = keyAt d2 j) :
    (dataNodup d1 ↔ dataNodup d2) ∧ (dataChain d1 ↔ dataChain d2) ∧
      countOcc d1 = countOcc d2 := by
  refine ⟨?_, ?_, ?_⟩
  · constructor <;> intro h i hi j hj hij hoi hoj
    · rw [← hk i, ← hk j]
      rw [← hlen] at hi hj
      exact h i hi j hj hij (by rwa [occupied, hk i]) (by rwa [occupied, hk j])
    · rw [hk i, hk j]
      rw [hlen] at hi hj
      exact h i hi j hj hij (by rwa [occupied, ← hk i]) (by rwa [occupied, ← hk j])
  · constructor <;> intro h i hi hoi y hy hoy
    · rw [← hk i, ← hlen]
      rw [← hlen] at hi hy
      exact h i hi (by rwa [occupied, hk i]) y hy (by rwa [occupied, hk y])
    · rw [hk i, hlen]
      rw [hlen] at hi hy
      exact h i hi (by rwa [occupied, ← hk i]) y hy (by rwa [occupied, ← hk y])
  · rw [countOcc_eq_sum, countOcc_eq_sum, hlen]
    exact Finset.sum_congr rfl fun j _ => by rw [hk j]

/-- Overwriting the value of a live key in place changes no key, hence
preserves every structural property and the live count. -/
theorem overwrite_spec {d : List (Nat × α)} {key x : Nat} (v : α)
    (hx : x < d.length) (hkx : keyAt d x = key) :
    (d.set x (key, v)).length = d.length ∧
      (∀ j, keyAt (d.set x (key, v)) j = keyAt d j) := by
  refine ⟨List.length_set .., fun j => ?_⟩
  by_cases hj : x = j
  · subst hj
    rw [keyAt_set_self hx, hkx]
  · rw [keyAt_set_ne hj]

/-- All-free tables: the fresh stores allocated by `rehash`, `Copy` and
`NewPhiMap`. -/
theorem replicate_free [Inhabited α] (n : Nat) :
    (∀ j, keyAt (List.replicate n ((0 : Nat), (default : α))) j = 0) ∧
      countOcc (List.replicate n ((0 : Nat), (default : α))) = 0 ∧
      dataNodup (List.replicate n ((0 : Nat), (default : α))) ∧
      dataChain (List.replicate n ((0 : Nat), (default : α))) := by
  have hk : ∀ j, keyAt (List.replicate n ((0 : Nat), (default : α))) j = 0 := by
    intro j
    rw [keyAt, List.getElem?_replicate]
    by_cases hj : j < n
    · rw [if_pos hj]; rfl
    · rw [if_neg hj]; rfl
  refine ⟨hk, ?_, ?_, ?_⟩
  · rw [countOcc_eq_sum]
    apply Finset.sum_eq_zero
    intro j _
    rw [hk j]
    simp
  · intro i _ _ _ _ hoi
    exact absurd (hk i) hoi
  · intro i _ hoi
    exact absurd (hk i) hoi

/-- Characterisation of the free-slot loop: on a table with a free slot it
stops at the first free slot on the probe path of `k`, and every earlier slot
on that path is occupied. -/
theorem freeLoop_spec {d : List (Nat × α)} {c : Nat} (hlen : d.length = c)
    (hmask : ∀ x : Nat, x &&& (c - 1) = x % c) (hc : 0 < c)
    (hfree : ∃ y, y < c ∧ keyAt d y = 0) (k : Nat) :
    ∃ f, f < c ∧ keyAt d f = 0 ∧
      freeLoop d (c - 1) d.length (phiMix k) = some f ∧
      (∀ mm < cdist c (home c k) f, occupied d ((home c k + mm) % c)) ∧
      (∀ y, y < c → keyAt d y = 0 →
        cdist c (home c k) f ≤ cdist c (home c k) y) := by
  classical
  obtain ⟨y, hy, hy0⟩ := hfree
  have hex : ∃ n, keyAt d ((home c k + n) % c) = 0 := by
    refine ⟨cdist c (home c k) y, ?_⟩
    rw [cdist_add (home_lt hc) hy]
    exact hy0
  let N := Nat.find hex
  have hNstop : keyAt d ((home c k + N) % c) = 0 := Nat.find_spec hex
  have hNmin : ∀ mm < N, keyAt d ((home c k + mm) % c) ≠ 0 := fun mm hmm =>
    Nat.find_min hex hmm
  have hNlt : N < c := by
    have h1 : N ≤ cdist c (home c k) y := by
      apply Nat.find_min'
      rw [cdist_add (home_lt hc) hy]
      exact hy0
    have h2 := cdist_lt (c := c) (home_lt (k := k) hc) hy
    omega
  have hmod : phiMix k % c = home c k := rfl
  set f := (home c k + N) % c with hf
  have hflt : f < c := Nat.mod_lt _ hc
  have hdf : cdist c (home c k) f = N := cdist_of_steps (home_lt hc) hNlt
  refine ⟨f, hflt, hNstop, ?_, ?_, ?_⟩
  · rw [hlen]
    have := @freeLoop_first α d c hmask hc N (phiMix k) c
      (by rw [hmod]; exact hNstop) (by rw [hmod]; exact hNmin) hNlt
    rw [this, hmod]
  · intro mm hmm
    rw [hdf] at hmm
    exact hNmin mm hmm
  · intro z hz hz0
    rw [hdf]
    by_contra hlt
    push_neg at hlt
    have := hNmin _ hlt
    rw [cdist_add (home_lt hc) hz] at this
    exact this hz0

theorem hasK_not_iff {d : List (Nat × α)} {k : Nat} :
    ¬ hasK d k ↔ ∀ x, x < d.length → keyAt d x ≠ k := by
  rw [hasK]
  push_neg
  rfl

/-- Effect of one fresh insertion on the logical contents. -/
theorem hasKV_set_fresh [Inhabited α] {d : List (Nat × α)} {f : Nat} {e : Nat × α}
    (hf : f < d.length) (hf0 : keyAt d f = 0) (he : e.1 ≠ 0) :
    ∀ k v, k ≠ 0 →
      (hasKV (d.set f e) k v ↔ hasKV d k v ∨ (k = e.1 ∧ v = e.2)) := by
  intro k v hk
  constructor
  · rintro ⟨x, hx, hkx, hvx⟩
    rw [List.length_set] at hx
    by_cases hxf : x = f
    · subst hxf
      rw [keyAt_set_self hx] at hkx
      rw [valAt_set_self hx] at hvx
      exact Or.inr ⟨hkx.symm, hvx.symm⟩
    · rw [keyAt_set_ne (fun h2 => hxf h2.symm)] at hkx
      rw [valAt_set_ne (fun h2 => hxf h2.symm)] at hvx
      exact Or.inl ⟨x, hx, hkx, hvx⟩
  · rintro (⟨x, hx, hkx, hvx⟩ | ⟨hke, hve⟩)
    · have hxf : x ≠ f := by
        intro h2
        rw [h2, hf0] at hkx
        exact hk hkx.symm
      refine ⟨x, by rwa [List.length_set], ?_, ?_⟩
      · rwa [keyAt_set_ne (fun h2 => hxf h2.symm)]
      · rwa [valAt_set_ne (fun h2 => hxf h2.symm)]
    · subst hke hve
      exact ⟨f, by rwa [List.length_set], keyAt_set_self hf _, valAt_set_self hf _⟩

/-- Correctness of the re-insertion fold shared by `rehash`: starting from an
accumulator with distinct keys, unbroken chains and enough room, folding the
live entries of `rest` (whose keys are fresh and pairwise distinct) yields a
table with those entries added and the running size equal to the live
count. -/
theorem rehash_fold [Inhabited α] {c2 : Nat} (hc2 : 0 < c2)
    (hmask : ∀ x : Nat, x &&& (c2 - 1) = x % c2) :
    ∀ (rest : List (Nat × α)) (d0 : List (Nat × α)) (sz0 : Int),
      d0.length = c2 → dataNodup d0 → dataChain d0 → sz0 = (countOcc d0 : Int) →
      countOcc d0 + (rest.filter fun e => e.1 ≠ 0).length < c2 →
      (∀ e ∈ rest, e.1 ≠ 0 → ¬ hasK d0 e.1) →
      rest.Pairwise (fun a b => a.1 ≠ 0 → b.1 ≠ 0 → a.1 ≠ b.1) →
      ∃ d1,
        rest.foldl (fun acc e => acc.bind fun ds =>
          if e.1 = 0 then some ds
          else (insertFresh ds.1 (c2 - 1) e.1 e.2).map fun d2 => (d2, ds.2 + 1))
          (some (d0, sz0))
          = some (d1, sz0 + ((rest.filter fun e => e.1 ≠ 0).length : Int)) ∧
        d1.length = c2 ∧ dataNodup d1 ∧ dataChain d1 ∧
        countOcc d1 = countOcc d0 + (rest.filter fun e => e.1 ≠ 0).length ∧
        (∀ k v, k ≠ 0 → (hasKV d1 k v ↔ hasKV d0 k v ∨ (k, v) ∈ rest)) := by
  intro rest
  induction rest with
  | nil =>
    intro d0 sz0 hlen hnodup hchain hsz _ _ _
    refine ⟨d0, ?_, hlen, hnodup, hchain, by simp, ?_⟩
    · simp
    · intro k v hk
      simp
  | cons e rest ih =>
    intro d0 sz0 hlen hnodup hchain hsz hroom hfresh hpw
    by_cases he : e.1 = 0
    · rw [List.foldl_cons]
      have hstep : (some (d0, sz0)).bind (fun ds =>
          if e.1 = 0 then some ds
          else (insertFresh ds.1 (c2 - 1) e.1 e.2).map fun d2 => (d2, ds.2 + 1))
          = some (d0, sz0) := by
        rw [Option.some_bind, if_pos he]
      rw [hstep]
      have hfilter : (e :: rest).filter (fun e => e.1 ≠ 0) =
          rest.filter (fun e => e.1 ≠ 0) := by
        rw [List.filter_cons, if_neg (by simp [he])]
      rw [hfilter] at hroom ⊢
      obtain ⟨d1, hfold, hlen1, hnd1, hch1, hcnt1, hmem1⟩ :=
        ih d0 sz0 hlen hnodup hchain hsz hroom
          (fun e2 hm hne => hfresh e2 (List.mem_cons_of_mem _ hm) hne)
          (List.Pairwise.of_cons hpw)
      refine ⟨d1, hfold, hlen1, hnd1, hch1, hcnt1, ?_⟩
      intro k v hk
      rw [hmem1 k v hk, List.mem_cons]
      constructor
      · rintro (h1 | h1)
        · exact Or.inl h1
        · exact Or.inr (Or.inr h1)
      · rintro (h1 | h1 | h1)
        · exact Or.inl h1
        · exfalso
          rw [← h1] at he
          simp only [] at he
          exact hk he
        · exact Or.inr h1
    · rw [List.foldl_cons]
      have hocclt : countOcc d0 < d0.length := by
        rw [hlen]
        have : 0 < ((e :: rest).filter fun e => e.1 ≠ 0).length := by
          rw [List.filter_cons, if_pos (by simpa using he)]
          simp
        omega
      obtain ⟨f, hflt, hf0, hfloop, hpath, _⟩ :=
        freeLoop_spec hlen hmask hc2
          (by
            obtain ⟨y, hy, hy0⟩ := exists_free_of_countOcc_lt hocclt
            exact ⟨y, by omega, hy0⟩) e.1
      have hins : insertFresh d0 (c2 - 1) e.1 e.2 = some (d0.set f (e.1, e.2)) := by
        rw [insertFresh, hfloop]
        rfl
      have hstep : (some (d0, sz0)).bind (fun ds =>
          if e.1 = 0 then some ds
          else (insertFresh ds.1 (c2 - 1) e.1 e.2).map fun d2 => (d2, ds.2 + 1))
          = some (d0.set f (e.1, e.2), sz0 + 1) := by
        rw [Option.some_bind, if_neg he, hins]
        rfl
      rw [hstep]
      have habs : ∀ x, x < d0.length → keyAt d0 x ≠ e.1 :=
        hasK_not_iff.mp (hfresh e (List.mem_cons_self e rest) he)
      have hflt0 : f < d0.length := by omega
      obtain ⟨hnd2, hch2, hcnt2⟩ :=
        @insert_free_spec α d0 e.1 f e.2 hflt0 hf0 he habs
          (by rw [hlen]; exact hpath) hnodup hchain
      have hlen2 : (d0.set f (e.1, e.2)).length = c2 := by
        rw [List.length_set, hlen]
      have hKV2 := hasKV_set_fresh (e := (e.1, e.2)) hflt0 hf0 he
      have hK2 : ∀ k, k ≠ 0 → (hasK (d0.set f (e.1, e.2)) k ↔ hasK d0 k ∨ k = e.1) := by
        intro k hk
        constructor
        · rintro ⟨x, hx, hkx⟩
          rw [List.length_set] at hx
          by_cases hxf : x = f
          · subst hxf
            rw [keyAt_set_self hx] at hkx
            exact Or.inr hkx.symm
          · rw [keyAt_set_ne (fun h2 => hxf h2.symm)] at hkx
            exact Or.inl ⟨x, hx, hkx⟩
        · rintro (⟨x, hx, hkx⟩ | hke)
          · have hxf : x ≠ f := by
              intro h2
              rw [h2, hf0] at hkx
              exact hk hkx.symm
            exact ⟨x, by rwa [List.length_set],
              by rwa [keyAt_set_ne (fun h2 => hxf h2.symm)]⟩
          · subst hke
            exact ⟨f, by rwa [List.length_set], keyAt_set_self hflt0 _⟩
      have hfilterc : ((e :: rest).filter fun e => e.1 ≠ 0).length
          = (rest.filter fun e => e.1 ≠ 0).length + 1 := by
        rw [List.filter_cons, if_pos (by simpa using he)]
        simp [Nat.add_comm]
      have hroom2 : countOcc (d0.set f (e.1, e.2))
          + (rest.filter fun e => e.1 ≠ 0).length < c2 := by
        rw [hcnt2]
        omega
      have hfresh2 : ∀ e2 ∈ rest, e2.1 ≠ 0 → ¬ hasK (d0.set f (e.1, e.2)) e2.1 := by
        intro e2 hm hne hcon
        rcases (hK2 e2.1 hne).mp hcon with h1 | h1
        · exact hfresh e2 (List.mem_cons_of_mem _ hm) hne h1
        · exact (List.rel_of_pairwise_cons hpw hm) he hne h1.symm
      obtain ⟨d1, hfold, hlen1, hnd1, hch1, hcnt1, hmem1⟩ :=
        ih (d0.set f (e.1, e.2)) (sz0 + 1) hlen2 hnd2 hch2
          (by rw [hcnt2, hsz]; push_cast; ring) hroom2 hfresh2
          (List.Pairwise.of_cons hpw)
      refine ⟨d1, ?_, hlen1, hnd1, hch1, ?_, ?_⟩
      · rw [hfold, hfilterc]
        congr 1
        push_cast
        ring
      · rw [hcnt1, hcnt2, hfilterc]
        omega
      · intro k v hk
        rw [hmem1 k v hk, hKV2 k v hk, List.mem_cons]
        have he2 : (k, v) = e ↔ k = e.1 ∧ v = e.2 := by
          rw [Prod.ext_iff]
        tauto

theorem countOcc_cons (e : Nat × α) (d : List (Nat × α)) :
    countOcc (e :: d) = (if e.1 ≠ 0 then 1 else 0) + countOcc d := by
  rw [countOcc_eq_sum, countOcc_eq_sum, List.length_cons, Finset.sum_range_succ']
  have h0 : keyAt (e :: d) 0 = e.1 := by
    rw [keyAt, List.getElem?_cons_zero]
    rfl
  have hs : ∀ i, keyAt (e :: d) (i + 1) = keyAt d i := fun i => by
    rw [keyAt, keyAt, List.getElem?_cons_succ]
  rw [h0, Finset.sum_congr rfl (fun i _ => by rw [hs i])]
  omega

theorem countOcc_eq_filter_length (d : List (Nat × α)) :
    countOcc d = (d.filter fun e => e.1 ≠ 0).length := by
  induction d with
  | nil => rfl
  | cons e d ih =>
    rw [countOcc_cons, List.filter_cons, ih]
    by_cases he : e.1 = 0
    · rw [if_neg (by simpa using he), if_neg (by simpa using he)]
      omega
    · rw [if_pos (by simpa using he), if_pos (by simpa using he)]
      simp [Nat.add_comm]

theorem pairwise_of_nodup {d : List (Nat × α)} (hnodup : dataNodup d) :
    d.Pairwise (fun a b => a.1 ≠ 0 → b.1 ≠ 0 → a.1 ≠ b.1) := by
  rw [List.pairwise_iff_getElem]
  intro i j hi hj hij ha hb
  have h1 : keyAt d i = (d[i]).1 := keyAt_eq_getElem hi
  have h2 : keyAt d j = (d[j]).1 := keyAt_eq_getElem hj
  have := hnodup i hi j hj (by omega) (by rwa [occupied, h1]) (by rwa [occupied, h2])
  rwa [h1, h2] at this

/-- Full correctness of `rehash`: it terminates, doubles the capacity,
recomputes mask and threshold, rebuilds `size` as the live count, and
preserves the key/value contents and the structural invariant. -/
theorem rehash_spec [Inhabited α] {m : PhiMap α} {t : Nat}
    (hlen : m.data.length = 2 ^ t) (ht : 0 < t)
    (hnodup : dataNodup m.data) (hchain : dataChain m.data) :
    ∃ m2, m.rehash = some m2 ∧
      m2.data.length = m.data.length * 2 ∧
      m2.mask = m.data.length * 2 - 1 ∧
      m2.threshold = calcThreshold (m.data.length * 2) ∧
      dataNodup m2.data ∧ dataChain m2.data ∧
      countOcc m2.data = countOcc m.data ∧
      m2.size = (countOcc m.data : Int) ∧
      (∀ k v, k ≠ 0 → (hasKV m2.data k v ↔ hasKV m.data k v)) := by
  have hc : 0 < m.data.length := by rw [hlen]; positivity
  have hc2 : 0 < m.data.length * 2 := by omega
  have hmask2 : ∀ x : Nat, x &&& (m.data.length * 2 - 1) = x % (m.data.length * 2) := by
    intro x
    have h2 : m.data.length * 2 = 2 ^ (t + 1) := by rw [hlen, pow_succ]
    rw [h2, Nat.and_pow_two_sub_one_eq_mod]
  obtain ⟨hrk, hrcnt, hrnd, hrch⟩ := replicate_free (α := α) (m.data.length * 2)
  have hroom : countOcc (List.replicate (m.data.length * 2) ((0 : Nat), (default : α)))
      + (m.data.filter fun e => e.1 ≠ 0).length < m.data.length * 2 := by
    rw [hrcnt]
    have := List.length_filter_le (fun e => decide (e.1 ≠ 0)) m.data
    omega
  obtain ⟨d1, hfold, hlen1, hnd1, hch1, hcnt1, hmem1⟩ :=
    rehash_fold hc2 hmask2 m.data
      (List.replicate (m.data.length * 2) ((0 : Nat), (default : α))) 0
      (List.length_replicate _ _) hrnd hrch (by rw [hrcnt]; rfl) hroom
      (by
        intro e _ hne hcon
        obtain ⟨x, _, hx⟩ := hcon
        rw [hrk x] at hx
        exact hne hx.symm)
      (pairwise_of_nodup hnodup)
  refine ⟨PhiMap.mk d1 (calcThreshold (m.data.length * 2))
      (0 + ((m.data.filter fun e => e.1 ≠ 0).length : Int)) (m.data.length * 2 - 1),
    ?_, hlen1, rfl, rfl, hnd1, hch1, ?_, ?_, ?_⟩
  · simp only [PhiMap.rehash]
    rw [hfold]
    rfl
  · rw [hcnt1, hrcnt, countOcc_eq_filter_length]
    omega
  · show (0 : Int) + ((m.data.filter fun e => e.1 ≠ 0).length : Int) = _
    rw [countOcc_eq_filter_length]
    omega
  · intro k v hk
    rw [hmem1 k v hk]
    have hnotmem : ((k : Nat), v) ∉ List.replicate (m.data.length * 2) ((0 : Nat), (default : α)) := by
      intro hm
      rw [List.mem_replicate] at hm
      exact hk (congrArg Prod.fst hm.2)
    rw [hasKV_iff_mem, hasKV_iff_mem]
    tauto

/-- The freshly constructed table satisfies the structural invariant. -/
theorem inv_newPhiMap [Inhabited α] : Inv (newPhiMap (α := α)) := by
  obtain ⟨hrk, hrcnt, hrnd, hrch⟩ := replicate_free (α := α) (arraySize 32)
  have hdata : (newPhiMap (α := α)).data
      = List.replicate (arraySize 32) ((0 : Nat), (default : α)) := rfl
  have hlen : (newPhiMap (α := α)).data.length = arraySize 32 := by
    rw [hdata, List.length_replicate]
  refine ⟨⟨6, by omega, by rw [hlen]; decide⟩, by rw [hlen]; rfl, ?_, ?_, ?_, ?_, ?_⟩
  · rw [hdata]; exact hrnd
  · rw [hdata]; exact hrch
  · show (0 : Int) = _
    rw [hdata, hrcnt]
    rfl
  · rw [hdata, hrcnt]
    exact Nat.zero_le _
  · show calcThreshold (arraySize 32) < (newPhiMap (α := α)).data.length
    rw [hlen]
    decide

theorem calcThreshold_double_ge (c : Nat) : c ≤ calcThreshold (c * 2) := by
  rw [calcThreshold]
  omega

theorem calcThreshold_double_lt {c : Nat} (hc : 0 < c) : calcThreshold (c * 2) < c * 2 := by
  rw [calcThreshold]
  omega

/-- Full correctness of `Set` for a non-sentinel key: it terminates, keeps
the invariant, stores the entry, leaves every other key's entry unchanged,
and accounts for `size` (unchanged on overwrite, incremented or rebuilt by a
rehash on fresh insertion). -/
theorem set_spec [Inhabited α] {m : PhiMap α} (h : Inv m) {key : Nat} (hkey : key ≠ 0)
    (v : α) :
    ∃ m2, m.set key v = some m2 ∧ Inv m2 ∧
      hasKV m2.data key v ∧
      (∀ k2 v2, k2 ≠ 0 → k2 ≠ key → (hasKV m2.data k2 v2 ↔ hasKV m.data k2 v2)) ∧
      (hasK m.data key →
        countOcc m2.data = countOcc m.data ∧ m2.size = m.size ∧
        m2.threshold = m.threshold ∧ m2.data.length = m.data.length) ∧
      (¬ hasK m.data key → countOcc m2.data = countOcc m.data + 1) ∧
      (¬ hasK m.data key → m.size < (m.threshold : Int) →
        m2.threshold = m.threshold ∧ m2.mask = m.mask ∧
        m2.data.length = m.data.length ∧ m2.size = m.size + 1) ∧
      (¬ hasK m.data key → m.size ≥ (m.threshold : Int) →
        m2.data.length = m.data.length * 2 ∧
        m2.threshold = calcThreshold (m.data.length * 2)) := by
  classical
  obtain ⟨t, ht, hl⟩ := h.cpow
  by_cases hpres : hasK m.data key
  · obtain ⟨x, hx, hkx⟩ := hpres
    have hfound := probe_found h hx hkx hkey
    rw [PhiMap.probe] at hfound
    have hstep : m.set key v = some { m with data := m.data.set x (key, v) } := by
      rw [PhiMap.set, probeLoopIns_eq hkey, hfound]
      rfl
    obtain ⟨hlen2, hkeys2⟩ := overwrite_spec (x := x) v hx hkx
    obtain ⟨hnd, hch, hcnt⟩ := congr_keys hlen2 hkeys2
    refine ⟨_, hstep, ?_, ?_, ?_, ?_, ?_, ?_, ?_⟩
    · exact ⟨⟨t, ht, by rw [List.length_set]; exact hl⟩,
        by rw [List.length_set]; exact h.maskEq,
        hnd.mpr h.nodup, hch.mpr h.chain,
        by rw [hcnt]; exact h.sizeEq,
        by rw [hcnt]; exact h.sizeLe,
        by rw [List.length_set]; exact h.thLt⟩
    · exact ⟨x, by rw [List.length_set]; exact hx,
        keyAt_set_self hx _, valAt_set_self hx _⟩
    · intro k2 v2 hk2 hne
      constructor
      · rintro ⟨y, hy, hky, hvy⟩
        rw [List.length_set] at hy
        have hyx : y ≠ x := by
          intro he
          rw [he, keyAt_set_self hx] at hky
          exact hne hky.symm
        rw [keyAt_set_ne (fun h2 => hyx h2.symm)] at hky
        rw [valAt_set_ne (fun h2 => hyx h2.symm)] at hvy
        exact ⟨y, hy, hky, hvy⟩
      · rintro ⟨y, hy, hky, hvy⟩
        have hyx : y ≠ x := by
          intro he
          rw [he, hkx] at hky
          exact hne hky.symm
        refine ⟨y, by rwa [List.length_set], ?_, ?_⟩
        · rwa [keyAt_set_ne (fun h2 => hyx h2.symm)]
        · rwa [valAt_set_ne (fun h2 => hyx h2.symm)]
    · intro _
      exact ⟨hcnt, rfl, rfl, List.length_set ..⟩
    · intro hcon
      exact absurd ⟨x, hx, hkx⟩ hcon
    · intro hcon
      exact absurd ⟨x, hx, hkx⟩ hcon
    · intro hcon _
      exact absurd ⟨x, hx, hkx⟩ hcon
  · have habs : ∀ y, y < m.data.length → keyAt m.data y ≠ key := by
      intro y hy hcon
      exact hpres ⟨y, hy, hcon⟩
    obtain ⟨f, hf, hf0, hprobe, hpath, _⟩ := probe_absent h hkey habs
    rw [PhiMap.probe] at hprobe
    obtain ⟨hnd2, hch2, hcnt2⟩ :=
      @insert_free_spec α m.data key f v hf hf0 hkey habs hpath h.nodup h.chain
    have hKV2 := hasKV_set_fresh (e := (key, v)) hf hf0 hkey
    by_cases hge : m.size ≥ (m.threshold : Int)
    · have hstep : m.set key v
          = PhiMap.rehash { m with data := m.data.set f (key, v) } := by
        rw [PhiMap.set, probeLoopIns_eq hkey, hprobe]
        show (if m.size ≥ (m.threshold : Int) then _ else _) = _
        rw [if_pos hge]
      have hlen2 : (m.data.set f (key, v)).length = 2 ^ t := by
        rw [List.length_set]; exact hl
      obtain ⟨m2, hre, hrlen, hrmask, hrth, hrnd, hrch, hrcnt, hrsz, hrmem⟩ :=
        rehash_spec (m := { m with data := m.data.set f (key, v) }) hlen2 ht hnd2 hch2
      have hslen : (({ m with data := m.data.set f (key, v) } : PhiMap α)).data.length
          = m.data.length := List.length_set ..
      refine ⟨m2, by rw [hstep, hre], ?_, ?_, ?_, ?_, ?_, ?_, ?_⟩
      · refine ⟨⟨t + 1, by omega, by rw [hrlen, hslen, hl, pow_succ]⟩,
          by rw [hrmask, hrlen], hrnd, hrch, ?_, ?_, ?_⟩
        · rw [hrsz, hrcnt]
        · rw [hrcnt, hcnt2, hrth, hslen]
          have h1 := h.sizeLe
          have h2 := h.thLt
          have h3 := calcThreshold_double_ge m.data.length
          omega
        · rw [hrth, hrlen, hslen]
          exact calcThreshold_double_lt h.len_pos
      · rw [hrmem _ _ hkey, hKV2 _ _ hkey]
        exact Or.inr ⟨rfl, rfl⟩
      · intro k2 v2 hk2 hne
        rw [hrmem _ _ hk2, hKV2 _ _ hk2]
        constructor
        · rintro (h1 | ⟨h1, _⟩)
          · exact h1
          · exact absurd h1 hne
        · exact Or.inl
      · intro hcon
        obtain ⟨y, hy, hky⟩ := hcon
        exact absurd ⟨y, hy, hky⟩ hpres
      · intro _
        rw [hrcnt, hcnt2]
      · intro _ hlt
        exact absurd hge (by omega)
      · intro _ _
        exact ⟨by rw [hrlen, hslen], by rw [hrth, hslen]⟩
    · have hstep : m.set key v
          = some { m with data := m.data.set f (key, v), size := m.size + 1 } := by
        rw [PhiMap.set, probeLoopIns_eq hkey, hprobe]
        show (if m.size ≥ (m.threshold : Int) then _ else _) = _
        rw [if_neg hge]
      refine ⟨_, hstep, ?_, ?_, ?_, ?_, ?_, ?_, ?_⟩
      · refine ⟨⟨t, ht, by rw [List.length_set]; exact hl⟩,
          by rw [List.length_set]; exact h.maskEq, hnd2, hch2, ?_, ?_,
          by rw [List.length_set]; exact h.thLt⟩
        · show m.size + 1 = _
          rw [hcnt2, h.sizeEq]
          push_cast
          ring
        · rw [hcnt2]
          show countOcc m.data + 1 ≤ m.threshold
          have h1 := h.sizeEq
          omega
      · exact ⟨f, by rw [List.length_set]; exact hf,
          keyAt_set_self hf _, valAt_set_self hf _⟩
      · intro k2 v2 hk2 hne
        rw [hKV2 _ _ hk2]
        constructor
        · rintro (h1 | ⟨h1, _⟩)
          · exact h1
          · exact absurd h1 hne
        · exact Or.inl
      · intro hcon
        obtain ⟨y, hy, hky⟩ := hcon
        exact absurd ⟨y, hy, hky⟩ hpres
      · intro _
        rw [hcnt2]
      · intro _ _
        exact ⟨rfl, rfl, List.length_set .., rfl⟩
      · intro _ hge2
        exact absurd hge2 hge

set_option maxHeartbeats 1000000 in
/-- The re-insertion fold of `Copy`: with enough threshold headroom no step
triggers a rehash, so capacity, threshold and mask are preserved while the
fresh entries are added. -/
theorem copy_fold [Inhabited α] :
    ∀ (rest : List (Nat × α)) (acc : PhiMap α),
      Inv acc →
      acc.size + ((rest.filter fun e => e.1 ≠ 0).length : Int) ≤ (acc.threshold : Int) →
      (∀ e ∈ rest, e.1 ≠ 0 → ¬ hasK acc.data e.1) →
      rest.Pairwise (fun a b => a.1 ≠ 0 → b.1 ≠ 0 → a.1 ≠ b.1) →
      ∃ m2, rest.foldl (fun a e => a.bind fun mm =>
          if e.1 = 0 then some mm else mm.set e.1 e.2) (some acc) = some m2 ∧
        Inv m2 ∧
        m2.threshold = acc.threshold ∧ m2.mask = acc.mask ∧
        m2.data.length = acc.data.length ∧
        m2.size = acc.size + ((rest.filter fun e => e.1 ≠ 0).length : Int) ∧
        (∀ k v, k ≠ 0 → (hasKV m2.data k v ↔ hasKV acc.data k v ∨ (k, v) ∈ rest)) := by
  intro rest
  induction rest with
  | nil =>
    intro acc hacc _ _ _
    refine ⟨acc, rfl, hacc, rfl, rfl, rfl, by simp, ?_⟩
    intro k v hk
    simp
  | cons e rest ih =>
    intro acc hacc hroom hfresh hpw
    by_cases he : e.1 = 0
    · rw [List.foldl_cons, Option.some_bind, if_pos he]
      have hfilter : (e :: rest).filter (fun e => e.1 ≠ 0)
          = rest.filter (fun e => e.1 ≠ 0) := by
        rw [List.filter_cons, if_neg (by simp [he])]
      rw [hfilter] at hroom ⊢
      obtain ⟨m2, hfold, hinv2, hth2, hmk2, hln2, hsz2, hmem2⟩ :=
        ih acc hacc hroom (fun e2 hm hne => hfresh e2 (List.mem_cons_of_mem _ hm) hne)
          (List.Pairwise.of_cons hpw)
      refine ⟨m2, hfold, hinv2, hth2, hmk2, hln2, hsz2, ?_⟩
      intro k v hk
      rw [hmem2 k v hk, List.mem_cons]
      constructor
      · rintro (h1 | h1)
        · exact Or.inl h1
        · exact Or.inr (Or.inr h1)
      · rintro (h1 | h1 | h1)
        · exact Or.inl h1
        · exfalso
          rw [← h1] at he
          exact hk he
        · exact Or.inr h1
    · rw [List.foldl_cons, Option.some_bind, if_neg he]
      have hfilterc : ((e :: rest).filter fun e => e.1 ≠ 0).length
          = (rest.filter fun e => e.1 ≠ 0).length + 1 := by
        rw [List.filter_cons, if_pos (by simpa using he)]
        simp [Nat.add_comm]
      have hnk : ¬ hasK acc.data e.1 := hfresh e (List.mem_cons_self e rest) he
      have hlt : acc.size < (acc.threshold : Int) := by
        rw [hfilterc] at hroom
        push_cast at hroom
        omega
      obtain ⟨m1, hset, hinv1, hstores1, hother1, _, _, hpres1, _⟩ :=
        set_spec hacc he e.2
      obtain ⟨hth1, hmk1, hln1, hsz1⟩ := hpres1 hnk hlt
      have hKV1 : ∀ k v, k ≠ 0 →
          (hasKV m1.data k v ↔ hasKV acc.data k v ∨ (k = e.1 ∧ v = e.2)) := by
        intro k v hk
        by_cases hke : k = e.1
        · subst hke
          constructor
          · intro h1
            right
            refine ⟨rfl, ?_⟩
            obtain ⟨x, hx, hkx, hvx⟩ := h1
            obtain ⟨y, hy, hky, hvy⟩ := hstores1
            have hxy : x = y := by
              by_contra hxy
              exact hinv1.nodup x hx y hy hxy
                (by rw [occupied, hkx]; exact hk) (by rw [occupied, hky]; exact hk)
                (by rw [hkx, hky])
            subst hxy
            rw [← hvx]
            exact hvy
          · rintro (h1 | ⟨_, hv⟩)
            · obtain ⟨x, hx, hkx, _⟩ := h1
              exact absurd ⟨x, hx, hkx⟩ hnk
            · subst hv
              exact hstores1
        · rw [hother1 k v hk hke]
          constructor
          · exact Or.inl
          · rintro (h1 | ⟨h1, _⟩)
            · exact h1
            · exact absurd h1 hke
      have hroom1 : m1.size + ((rest.filter fun e => e.1 ≠ 0).length : Int)
          ≤ (m1.threshold : Int) := by
        rw [hsz1, hth1]
        rw [hfilterc] at hroom
        push_cast at hroom ⊢
        omega
      have hfresh1 : ∀ e2 ∈ rest, e2.1 ≠ 0 → ¬ hasK m1.data e2.1 := by
        intro e2 hm hne hcon
        obtain ⟨x, hx, hkx⟩ := hcon
        have : hasKV m1.data e2.1 (valAt m1.data x) := ⟨x, hx, hkx, rfl⟩
        rcases (hKV1 _ _ hne).mp this with h1 | ⟨h1, _⟩
        · obtain ⟨y, hy, hky, _⟩ := h1
          exact hfresh e2 (List.mem_cons_of_mem _ hm) hne ⟨y, hy, hky⟩
        · exact (List.rel_of_pairwise_cons hpw hm) he hne h1.symm
      obtain ⟨m2, hfold, hinv2, hth2, hmk2, hln2, hsz2, hmem2⟩ :=
        ih m1 hinv1 hroom1 hfresh1 (List.Pairwise.of_cons hpw)
      rw [hset]
      refine ⟨m2, hfold, hinv2, by rw [hth2, hth1], by rw [hmk2, hmk1],
        by rw [hln2, hln1], ?_, ?_⟩
      · rw [hsz2, hsz1, hfilterc]
        push_cast
        ring
      · intro k v hk
        rw [hmem2 k v hk, hKV1 k v hk, List.mem_cons]
        have he2 : (k, v) = e ↔ k = e.1 ∧ v = e.2 := by
          rw [Prod.ext_iff]
        tauto

/-- Full correctness of `Copy`: it terminates, preserves the contents and the
invariant, keeps the source's `threshold` field unchanged, and doubles the
capacity exactly when `size >= threshold`. -/
theorem copy_spec [Inhabited α] {m : PhiMap α} (h : Inv m) :
    ∃ m2, m.copy = some m2 ∧ Inv m2 ∧
      m2.threshold = m.threshold ∧
      m2.data.length
        = (if m.size ≥ (m.threshold : Int) then m.data.length * 2 else m.data.length) ∧
      m2.size = (countOcc m.data : Int) ∧ countOcc m2.data = countOcc m.data ∧
      (∀ k v, k ≠ 0 → (hasKV m2.data k v ↔ hasKV m.data k v)) := by
  classical
  obtain ⟨t, ht, hl⟩ := h.cpow
  set cap := if m.size ≥ (m.threshold : Int) then m.data.length * 2 else m.data.length
    with hcapdef
  have hcapge : m.data.length ≤ cap := by
    rw [hcapdef]
    split <;> omega
  have hcappow : ∃ t2, 0 < t2 ∧ cap = 2 ^ t2 := by
    rw [hcapdef]
    by_cases hge : m.size ≥ (m.threshold : Int)
    · exact ⟨t + 1, by omega, by rw [if_pos hge, hl, pow_succ]⟩
    · exact ⟨t, ht, by rw [if_neg hge]; exact hl⟩
  obtain ⟨hrk, hrcnt, hrnd, hrch⟩ := replicate_free (α := α) cap
  have hinvinit : Inv (PhiMap.mk (List.replicate cap ((0 : Nat), (default : α)))
      m.threshold 0 (cap - 1)) := by
    refine ⟨?_, ?_, hrnd, hrch, ?_, ?_, ?_⟩
    · obtain ⟨t2, ht2, hc2⟩ := hcappow
      exact ⟨t2, ht2, by rw [List.length_replicate]; exact hc2⟩
    · rw [List.length_replicate]
    · show (0 : Int) = _
      rw [hrcnt]
      rfl
    · rw [hrcnt]
      exact Nat.zero_le _
    · show m.threshold < (List.replicate cap ((0 : Nat), (default : α))).length
      rw [List.length_replicate]
      have := h.thLt
      omega
  obtain ⟨m2, hfold, hinv2, hth2, _, hln2, hsz2, hmem2⟩ :=
    copy_fold m.data
      (PhiMap.mk (List.replicate cap ((0 : Nat), (default : α))) m.threshold 0 (cap - 1))
      hinvinit
      (by
        show (0 : Int) + _ ≤ _
        rw [← countOcc_eq_filter_length]
        have := h.sizeLe
        push_cast
        omega)
      (by
        intro e _ hne hcon
        obtain ⟨x, _, hx⟩ := hcon
        show False
        rw [show (PhiMap.mk (List.replicate cap ((0 : Nat), (default : α)))
          m.threshold 0 (cap - 1)).data = List.replicate cap ((0 : Nat), (default : α))
          from rfl] at hx
        rw [hrk x] at hx
        exact hne hx.symm)
      (pairwise_of_nodup h.nodup)
  refine ⟨m2, ?_, hinv2, hth2, ?_, ?_, ?_, ?_⟩
  · simp only [PhiMap.copy]
    rw [← hcapdef, hfold]
  · rw [hln2]
    show (List.replicate cap ((0 : Nat), (default : α))).length = _
    rw [List.length_replicate, hcapdef]
  · rw [hsz2]
    show (0 : Int) + _ = _
    rw [← countOcc_eq_filter_length]
    omega
  · have := hinv2.sizeEq
    rw [hsz2] at this
    have h2 : ((0 : Int) + ((m.data.filter fun e => e.1 ≠ 0).length : Int))
        = (countOcc m.data : Int) := by
      rw [← countOcc_eq_filter_length]
      omega
    rw [h2] at this
    omega
  · intro k v hk
    rw [hmem2 k v hk]
    have hnotkv : ¬ hasKV (PhiMap.mk (List.replicate cap ((0 : Nat), (default : α)))
        m.threshold 0 (cap - 1)).data k v := by
      rintro ⟨x, _, hx, _⟩
      rw [show (PhiMap.mk (List.replicate cap ((0 : Nat), (default : α)))
        m.threshold 0 (cap - 1)).data = List.replicate cap ((0 : Nat), (default : α))
        from rfl] at hx
      rw [hrk x] at hx
      exact hk hx.symm
    rw [hasKV_iff_mem (d := m.data)]
    tauto

/-! ## Backward-shift deletion (`shiftKeys`) -/

/-- Translation of cyclic distances to a common anchor `i`: every
`cdist c u v` is determined by the offsets of `u` and `v` from `i`. -/
theorem cdist_tr {c i u v : Nat} (hi : i < c) (hu : u < c) (hv : v < c) :
    cdist c u v = if cdist c i u ≤ cdist c i v then cdist c i v - cdist c i u
      else c + cdist c i v - cdist c i u := by
  rw [cdist_closed hu hv, cdist_closed hi hu, cdist_closed hi hv]
  split_ifs <;> omega

theorem home_def (c k : Nat) : phiMix k % c = home c k := rfl

/-- The raw break test of `shiftKeys` says exactly that the entry's home slot
is outside the cyclic interval `(last, pos]`. -/
theorem brk_iff_not_cyclicMem (last slot p : Nat) :
    (if last ≤ p then slot ≤ last ∨ p < slot else slot ≤ last ∧ p < slot)
      ↔ ¬ cyclicMem last slot p := by
  unfold cyclicMem
  split_ifs <;> constructor <;> intro hh <;> first | omega | (intro h2; omega) | tauto

/-- Tables with the same free slots have the same live count. -/
theorem countOcc_congr_free {d1 d2 : List (Nat × α)} (hlen : d1.length = d2.length)
    (hfree : ∀ y, y < d1.length → (keyAt d1 y = 0 ↔ keyAt d2 y = 0)) :
    countOcc d1 = countOcc d2 := by
  rw [countOcc_eq_sum, countOcc_eq_sum, hlen]
  apply Finset.sum_congr rfl
  intro j hj
  have := hfree j (by rw [hlen]; exact Finset.mem_range.mp hj)
  by_cases h1 : keyAt d1 j = 0
  · rw [if_neg (by simpa using h1), if_neg (by simpa using (this.mp h1))]
  · rw [if_pos (by simpa using h1), if_pos (by simpa using (fun h2 => h1 (this.mpr h2)))]

/-- First-event characterisation of the inner scan of `shiftKeys`: as long as
every visited slot is occupied with its home inside `(last, pos]` the scan
continues; it reports the cleared table on the first free slot and the break
position on the first movable entry. -/
theorem shiftInner_first [Inhabited α] {d : List (Nat × α)} {c last : Nat}
    (hmask : ∀ x : Nat, x &&& (c - 1) = x % c) (hc : 0 < c)
    {n ptr fuel : Nat}
    (hskip : ∀ mm, mm < n → occupied d ((ptr % c + mm) % c) ∧
      cyclicMem last (home c (keyAt d ((ptr % c + mm) % c))) ((ptr % c + mm) % c))
    (hfuel : n < fuel) :
    (keyAt d ((ptr % c + n) % c) = 0 →
      shiftInner d (c - 1) last fuel ptr = some (Sum.inr (clearAt d last))) ∧
    (occupied d ((ptr % c + n) % c) →
      ¬ cyclicMem last (home c (keyAt d ((ptr % c + n) % c))) ((ptr % c + n) % c) →
      shiftInner d (c - 1) last fuel ptr = some (Sum.inl ((ptr % c + n) % c))) := by
  induction fuel generalizing n ptr with
  | zero => omega
  | succ f ih =>
    rw [shiftInner]
    simp only [hmask, home_def]
    rcases Nat.eq_zero_or_pos n with hn | hn
    · subst hn
      have hpos : (ptr % c + 0) % c = ptr % c := by
        rw [Nat.add_zero, Nat.mod_mod_of_dvd _ (dvd_refl c)]
      rw [hpos]
      constructor
      · intro h0
        rw [if_pos h0]
      · intro hocc hbrk
        rw [if_neg hocc]
        rw [if_pos ((brk_iff_not_cyclicMem last (home c (keyAt d (ptr % c))) (ptr % c)).mpr
          hbrk)]
    · obtain ⟨h0occ, h0mem⟩ := hskip 0 hn
      have hpos : (ptr % c + 0) % c = ptr % c := by
        rw [Nat.add_zero, Nat.mod_mod_of_dvd _ (dvd_refl c)]
      rw [hpos] at h0occ h0mem
      rw [if_neg h0occ]
      rw [if_neg (by
        rw [brk_iff_not_cyclicMem]
        exact fun h2 => h2 h0mem)]
      have hshift : ∀ mm : Nat, ((ptr % c + 1) % c + mm) % c = (ptr % c + (mm + 1)) % c := by
        intro mm
        rw [Nat.mod_add_mod]
        congr 1
        omega
      have hskip2 : ∀ mm, mm < n - 1 → occupied d (((ptr % c + 1) % c + mm) % c) ∧
          cyclicMem last (home c (keyAt d (((ptr % c + 1) % c + mm) % c)))
            (((ptr % c + 1) % c + mm) % c) := by
        intro mm hmm
        rw [hshift]
        exact hskip (mm + 1) (by omega)
      have := ih hskip2 (by omega : n - 1 < f)
      have hn1 : n - 1 + 1 = n := by omega
      rw [hshift, hn1] at this
      exact this

/-- Loop invariant for the outer `shiftKeys` loop.  `d₀` is the table at the
start of deletion at slot `i` holding key `k₀`, and `F` is the offset (from
`i`) of the first free slot on the scan path.  `d` is the current table and
`h` the current hole: its physical content is stale, every other slot agrees
with the remaining logical contents. -/
structure ShiftState [Inhabited α] (d₀ : List (Nat × α)) (c i k₀ F : Nat)
    (d : List (Nat × α)) (h : Nat) : Prop where
  hlen : d.length = c
  hhlt : h < c
  hsh : cdist c i h < F
  hfree : ∀ y, y < c → (keyAt d y = 0 ↔ keyAt d₀ y = 0)
  hcont : ∀ k v, k ≠ 0 → ((∃ x, x < c ∧ x ≠ h ∧ keyAt d x = k ∧ valAt d x = v) ↔
    (hasKV d₀ k v ∧ k ≠ k₀))
  hnd : ∀ x, x < c → x ≠ h → ∀ y, y < c → y ≠ h → x ≠ y →
    occupied d x → occupied d y → keyAt d x ≠ keyAt d y
  hch : ∀ x, x < c → x ≠ h → occupied d x → ∀ y, y < c → keyAt d₀ y = 0 →
    cdist c (home c (keyAt d x)) x ≤ cdist c (home c (keyAt d x)) y
  hbehind : ∀ x, x < c → x ≠ h → occupied d x → cdist c i x < cdist c i h →
    ∀ z, z < c → cdist c i h ≤ cdist c i z → cdist c i z ≤ F →
    cdist c (home c (keyAt d x)) x ≤ cdist c (home c (keyAt d x)) z

/-- Geometry of a skipped entry: if the home of the entry at `x` lies in the
cyclic interval `(h, x]`, then `x`'s probe path avoids `h` and every slot at
or beyond `x` in scan order. -/
theorem skip_geom {c i h x hm : Nat} (hi : i < c) (hh : h < c) (hx : x < c)
    (hhm : hm < c) (hmem : cyclicMem h hm x) (hlt : cdist c i h < cdist c i x) :
    (∀ z, z < c → cdist c i x ≤ cdist c i z → cdist c hm x ≤ cdist c hm z) ∧
      cdist c hm x ≤ cdist c hm h := by
  rw [cyclicMem_iff_cdist hh hhm hx, cdist_tr hi hh hhm, cdist_tr hi hh hx] at hmem
  have b1 := cdist_lt hi hh
  have b2 := cdist_lt hi hx
  have b3 := cdist_lt hi hhm
  constructor
  · intro z hz hzx
    rw [cdist_tr hi hhm hx, cdist_tr hi hhm hz]
    have b4 := cdist_lt hi hz
    split_ifs at * <;> omega
  · rw [cdist_tr hi hhm hx, cdist_tr hi hhm hh]
    split_ifs at * <;> omega

/-- Geometry of a moved entry: if the home of the entry at `p` is outside
`(h, p]` and `p`'s probe path avoids the free slot `fs` beyond it, then after
moving the entry to `h` its probe path avoids every slot between `h` and `fs`
in scan order. -/
theorem brk_geom {c i h p hm fs : Nat} (hi : i < c) (hh : h < c) (hp : p < c)
    (hhm : hm < c) (hfs : fs < c)
    (hnmem : ¬ cyclicMem h hm p)
    (hsh : cdist c i h < cdist c i p)
    (hpf : cdist c i p < cdist c i fs)
    (hchp : cdist c hm p ≤ cdist c hm fs) :
    ∀ z, z < c → cdist c i h ≤ cdist c i z → cdist c i z ≤ cdist c i fs →
      cdist c hm h ≤ cdist c hm z := by
  rw [cyclicMem_iff_cdist hh hhm hp, cdist_tr hi hh hhm, cdist_tr hi hh hp] at hnmem
  push_neg at hnmem
  rw [cdist_tr hi hhm hp, cdist_tr hi hhm hfs] at hchp
  have b1 := cdist_lt hi hh
  have b2 := cdist_lt hi hp
  have b3 := cdist_lt hi hhm
  have b4 := cdist_lt hi hfs
  intro z hz h1 h2
  rw [cdist_tr hi hhm hh, cdist_tr hi hhm hz]
  have b5 := cdist_lt hi hz
  split_ifs at * <;> omega

/-- Geometry of an entry beyond the first free slot: its probe path cannot
reach back across the free slot, so it avoids the hole. -/
theorem ahead_geom {c i h x hm fs : Nat} (hi : i < c) (hh : h < c) (hx : x < c)
    (hhm : hm < c) (hfs : fs < c)
    (hch : cdist c hm x ≤ cdist c hm fs)
    (hhf : cdist c i h < cdist c i fs) (hfx : cdist c i fs < cdist c i x) :
    cdist c hm x ≤ cdist c hm h := by
  rw [cdist_tr hi hhm hx, cdist_tr hi hhm hfs] at hch
  have b1 := cdist_lt hi hh
  have b2 := cdist_lt hi hx
  have b3 := cdist_lt hi hhm
  have b4 := cdist_lt hi hfs
  rw [cdist_tr hi hhm hx, cdist_tr hi hhm hh]
  split_ifs at * <;> omega

/-- One break step of the outer `shiftKeys` loop: the movable entry at the
break position is copied into the hole, and the loop invariant holds again
with the break position as the new hole. -/
theorem shiftLoop_break_step [Inhabited α] {d₀ : List (Nat × α)} {c i k₀ F : Nat}
    (hlen₀ : d₀.length = c) (hmask : ∀ x : Nat, x &&& (c - 1) = x % c) (hc : 0 < c)
    (hi : i < c) (hik : keyAt d₀ i = k₀) (hk₀ : k₀ ≠ 0)
    (hF1 : 1 ≤ F) (hFc : F < c)
    (hFfree : keyAt d₀ ((i + F) % c) = 0)
    (hFocc : ∀ n, n < F → occupied d₀ ((i + n) % c))
    (hfreeσ : ∀ y, y < c → keyAt d₀ y = 0 → F ≤ cdist c i y)
    {f : Nat}
    (ih : ∀ (d : List (Nat × α)) (h : Nat), ShiftState d₀ c i k₀ F d h →
      F - cdist c i h + 1 ≤ f →
      ∃ d2, shiftLoop d (c - 1) f h = some d2 ∧ d2.length = c ∧
        countOcc d2 + 1 = countOcc d₀ ∧
        (∀ k v, k ≠ 0 → (hasKV d2 k v ↔ hasKV d₀ k v ∧ k ≠ k₀)) ∧
        dataNodup d2 ∧ dataChain d2)
    {d : List (Nat × α)} {h : Nat}
    (hst : ShiftState d₀ c i k₀ F d h)
    (hfl : F - cdist c i h + 1 ≤ f + 1)
    {mm₀ : Nat}
    (hocc : occupied d (((h + 1) % c + mm₀) % c))
    (hbrk : ¬ cyclicMem h (home c (keyAt d (((h + 1) % c + mm₀) % c)))
      (((h + 1) % c + mm₀) % c))
    (hplt : (((h + 1) % c + mm₀) % c) < c)
    (hsp : cdist c i (((h + 1) % c + mm₀) % c) = cdist c i h + 1 + mm₀)
    (hph : (((h + 1) % c + mm₀) % c) ≠ h)
    (hskips : ∀ mm, mm < mm₀ →
      occupied d (((h + 1) % c + mm) % c) ∧
      cyclicMem h (home c (keyAt d (((h + 1) % c + mm) % c))) (((h + 1) % c + mm) % c))
    (hmlt : mm₀ < F - cdist c i h - 1) :
    ∃ d2, shiftLoop (d.set h (keyAt d (((h + 1) % c + mm₀) % c),
        valAt d (((h + 1) % c + mm₀) % c))) (c - 1) f (((h + 1) % c + mm₀) % c)
      = some d2 ∧ d2.length = c ∧
      countOcc d2 + 1 = countOcc d₀ ∧
      (∀ k v, k ≠ 0 → (hasKV d2 k v ↔ hasKV d₀ k v ∧ k ≠ k₀)) ∧
      dataNodup d2 ∧ dataChain d2 := by
  classical
  set p := ((h + 1) % c + mm₀) % c with hpdef
  set d2 := d.set h (keyAt d p, valAt d p) with hd2def
  have hlen := hst.hlen
  have hhlt := hst.hhlt
  have hs := hst.hsh
  have hhd : h < d.length := by rw [hlen]; exact hhlt
  have hieq : (i + cdist c i h) % c = h := cdist_add hi hhlt
  have hocch₀ : keyAt d₀ h ≠ 0 := by
    have h2 := hFocc _ hs
    rw [hieq] at h2
    exact h2
  have hk2h : keyAt d2 h = keyAt d p := keyAt_set_self hhd _
  have hv2h : valAt d2 h = valAt d p := valAt_set_self hhd _
  have hk2ne : ∀ y, y ≠ h → keyAt d2 y = keyAt d y := by
    intro y hy
    rw [hd2def, keyAt_set_ne (fun e => hy e.symm)]
  have hv2ne : ∀ y, y ≠ h → valAt d2 y = valAt d y := by
    intro y hy
    rw [hd2def, valAt_set_ne (fun e => hy e.symm)]
  have hposeq : ∀ mm, ((h + 1) % c + mm) % c
      = (i + (cdist c i h + 1 + mm)) % c := by
    intro mm
    conv_lhs => rw [← hieq]
    rw [Nat.mod_add_mod, Nat.add_assoc, Nat.mod_add_mod]
    congr 1
    omega
  have hxpos : ∀ x, x < c → cdist c i h < cdist c i x → cdist c i x ≤ cdist c i h + mm₀ →
      ((h + 1) % c + (cdist c i x - cdist c i h - 1)) % c = x := by
    intro x hx hgt hle
    rw [hposeq]
    have he2 : cdist c i h + 1 + (cdist c i x - cdist c i h - 1) = cdist c i x := by
      omega
    rw [he2]
    exact cdist_add hi hx
  have hst2 : ShiftState d₀ c i k₀ F d2 p := by
    refine ⟨by rw [hd2def, List.length_set, hlen], hplt, by omega, ?_, ?_, ?_, ?_, ?_⟩
    · -- free slots unchanged
      intro y hy
      by_cases hyh : y = h
      · rw [hyh, hk2h]
        exact iff_of_false hocc hocch₀
      · rw [hk2ne y hyh]
        exact hst.hfree y hy
    · -- logical contents relative to the new hole
      intro k v hk
      rw [← hst.hcont k v hk]
      constructor
      · rintro ⟨x, hx, hxp, hkx, hvx⟩
        by_cases hxh : x = h
        · rw [hxh, hk2h] at hkx
          rw [hxh, hv2h] at hvx
          exact ⟨p, hplt, hph, hkx, hvx⟩
        · rw [hk2ne x hxh] at hkx
          rw [hv2ne x hxh] at hvx
          exact ⟨x, hx, hxh, hkx, hvx⟩
      · rintro ⟨x, hx, hxh, hkx, hvx⟩
        by_cases hxp : x = p
        · subst hxp
          refine ⟨h, hhlt, fun e => hph e.symm, ?_, ?_⟩
          · rw [hk2h]; exact hkx
          · rw [hv2h]; exact hvx
        · refine ⟨x, hx, hxp, ?_, ?_⟩
          · rw [hk2ne x hxh]; exact hkx
          · rw [hv2ne x hxh]; exact hvx
    · -- distinct keys outside the new hole
      intro x hx hxp y hy hyp hxy hocx hocy
      by_cases hxh : x = h
      · have hyh : y ≠ h := fun e => hxy (hxh.trans e.symm)
        rw [occupied, hk2ne y hyh] at hocy
        rw [hxh, hk2h, hk2ne y hyh]
        exact hst.hnd p hplt hph y hy hyh (fun e => hyp e.symm) hocc hocy
      · by_cases hyh : y = h
        · rw [occupied, hk2ne x hxh] at hocx
          rw [hyh, hk2h, hk2ne x hxh]
          exact fun e =>
            hst.hnd p hplt hph x hx hxh (fun e2 => hxp e2.symm) hocc hocx e.symm
        · rw [occupied, hk2ne x hxh] at hocx
          rw [occupied, hk2ne y hyh] at hocy
          rw [hk2ne x hxh, hk2ne y hyh]
          exact hst.hnd x hx hxh y hy hyh hxy hocx hocy
    · -- chains avoid the original free slots
      intro x hx hxp hocx y hy hy0
      by_cases hxh : x = h
      · rw [hxh, hk2h]
        have hhm : home c (keyAt d p) < c := home_lt hc
        have hchp := hst.hch p hplt hph hocc y hy hy0
        have hyF := hfreeσ y hy hy0
        exact brk_geom hi hhlt hplt hhm hy hbrk (by omega) (by omega) hchp y hy
          (by omega) (le_refl _)
      · rw [occupied, hk2ne x hxh] at hocx
        rw [hk2ne x hxh]
        exact hst.hch x hx hxh hocx y hy hy0
    · -- scanned entries stay clean behind the new hole
      intro x hx hxp hocx hxlt z hz hz1 hz2
      rw [hsp] at hxlt
      by_cases hxh : x = h
      · rw [hxh, hk2h]
        have hhm : home c (keyAt d p) < c := home_lt hc
        have hfs : (i + F) % c < c := Nat.mod_lt _ hc
        have hsF : cdist c i ((i + F) % c) = F := cdist_of_steps hi hFc
        have hchp := hst.hch p hplt hph hocc ((i + F) % c) hfs hFfree
        exact brk_geom hi hhlt hplt hhm hfs hbrk (by omega) (by rw [hsF]; omega) hchp
          z hz (by rw [hsp] at hz1; omega) (by rw [hsF]; omega)
      · rw [occupied, hk2ne x hxh] at hocx
        rw [hk2ne x hxh]
        rcases lt_trichotomy (cdist c i x) (cdist c i h) with h1 | h1 | h1
        · exact hst.hbehind x hx hxh hocx h1 z hz (by rw [hsp] at hz1; omega) hz2
        · exact absurd (cdist_inj hi hx hhlt h1) hxh
        · have hxle : cdist c i x ≤ cdist c i h + mm₀ := by
            by_contra hgt
            push_neg at hgt
            have : cdist c i x = cdist c i h + 1 + mm₀ := by omega
            rw [← hsp] at this
            exact hxp (cdist_inj hi hx hplt this)
          have hpos := hxpos x hx h1 hxle
          have hsk := hskips (cdist c i x - cdist c i h - 1) (by omega)
          rw [hpos] at hsk
          have hhm : home c (keyAt d x) < c := home_lt hc
          exact (skip_geom hi hhlt hx hhm hsk.2 h1).1 z hz (by rw [hsp] at hz1; omega)
  exact ih d2 p hst2 (by rw [hsp]; omega)

/-- Full correctness of the outer `shiftKeys` loop, by induction on the fuel.
Starting from any state satisfying the loop invariant, the loop terminates by
clearing the final hole, and the resulting table holds exactly the original
contents minus the deleted key, with distinct keys and unbroken chains. -/
theorem shiftLoop_run [Inhabited α] {d₀ : List (Nat × α)} {c i k₀ F : Nat}
    (hlen₀ : d₀.length = c) (hmask : ∀ x : Nat, x &&& (c - 1) = x % c) (hc : 0 < c)
    (hi : i < c) (hik : keyAt d₀ i = k₀) (hk₀ : k₀ ≠ 0)
    (hF1 : 1 ≤ F) (hFc : F < c)
    (hFfree : keyAt d₀ ((i + F) % c) = 0)
    (hFocc : ∀ n, n < F → occupied d₀ ((i + n) % c)) :
    ∀ fuel (d : List (Nat × α)) (h : Nat),
      ShiftState d₀ c i k₀ F d h →
      F - cdist c i h + 1 ≤ fuel →
      ∃ d2, shiftLoop d (c - 1) fuel h = some d2 ∧
        d2.length = c ∧
        countOcc d2 + 1 = countOcc d₀ ∧
        (∀ k v, k ≠ 0 → (hasKV d2 k v ↔ hasKV d₀ k v ∧ k ≠ k₀)) ∧
        dataNodup d2 ∧ dataChain d2 := by
  classical
  have hfreeσ : ∀ y, y < c → keyAt d₀ y = 0 → F ≤ cdist c i y := by
    intro y hy hy0
    by_contra hlt
    push_neg at hlt
    have := hFocc _ hlt
    rw [cdist_add hi hy] at this
    exact this hy0
  intro fuel
  induction fuel with
  | zero =>
    intro d h hst hfl
    omega
  | succ f ih =>
    intro d h hst hfl
    have hlen := hst.hlen
    have hhlt := hst.hhlt
    have hs := hst.hsh
    have hieq : (i + cdist c i h) % c = h := cdist_add hi hhlt
    have hposeq : ∀ mm, ((h + 1) % c + mm) % c
        = (i + (cdist c i h + 1 + mm)) % c := by
      intro mm
      conv_lhs => rw [← hieq]
      rw [Nat.mod_add_mod, Nat.add_assoc, Nat.mod_add_mod]
      congr 1
      omega
    have hocch : keyAt d h ≠ 0 := by
      intro hcon
      have h1 := (hst.hfree h hhlt).mp hcon
      have h2 := hFocc _ hs
      rw [hieq] at h2
      exact h2 h1
    have hoccmm : ∀ mm, mm < F - cdist c i h - 1 →
        occupied d (((h + 1) % c + mm) % c) := by
      intro mm hmm
      rw [hposeq]
      have h1 := hFocc (cdist c i h + 1 + mm) (by omega)
      intro hcon
      exact h1 ((hst.hfree _ (Nat.mod_lt _ hc)).mp hcon)
    have hposF : ((h + 1) % c + (F - cdist c i h - 1)) % c = (i + F) % c := by
      rw [hposeq]
      congr 1
      omega
    have hPN : ¬ (occupied d (((h + 1) % c + (F - cdist c i h - 1)) % c) ∧
        cyclicMem h (home c (keyAt d (((h + 1) % c + (F - cdist c i h - 1)) % c)))
          (((h + 1) % c + (F - cdist c i h - 1)) % c)) := by
      rw [hposF]
      rintro ⟨h1, _⟩
      exact h1 ((hst.hfree _ (Nat.mod_lt _ hc)).mpr hFfree)
    have hPex : ∃ mm, ¬ (occupied d (((h + 1) % c + mm) % c) ∧
        cyclicMem h (home c (keyAt d (((h + 1) % c + mm) % c)))
          (((h + 1) % c + mm) % c)) := ⟨_, hPN⟩
    have hmm₀le : Nat.find hPex ≤ F - cdist c i h - 1 := Nat.find_min' hPex hPN
    have hskips : ∀ mm, mm < Nat.find hPex →
        occupied d (((h + 1) % c + mm) % c) ∧
        cyclicMem h (home c (keyAt d (((h + 1) % c + mm) % c)))
          (((h + 1) % c + mm) % c) :=
      fun mm hmm => of_not_not (Nat.find_min hPex hmm)
    by_cases hcase : Nat.find hPex = F - cdist c i h - 1
    · -- the scan reaches the first free slot: clear the hole and stop
      have hfreeAt : keyAt d (((h + 1) % c + (F - cdist c i h - 1)) % c) = 0 := by
        rw [hposF]
        exact (hst.hfree _ (Nat.mod_lt _ hc)).mpr hFfree
      have hinner := (@shiftInner_first α _ d c h hmask hc
        (F - cdist c i h - 1) (h + 1) d.length
        (fun mm hmm => hskips mm (by rw [hcase]; exact hmm)) (by rw [hlen]; omega)).1
        hfreeAt
      have hstep : shiftLoop d (c - 1) (f + 1) h = some (clearAt d h) := by
        rw [shiftLoop, hinner]
      have hlen2 : (clearAt d h).length = c := by
        rw [clearAt, List.length_set, hlen]
      have hhd : h < d.length := by rw [hlen]; exact hhlt
      have hkey2 : ∀ y, y ≠ h → keyAt (clearAt d h) y = keyAt d y := by
        intro y hy
        rw [clearAt, keyAt_set_ne (fun e => hy e.symm)]
      have hkey2h : keyAt (clearAt d h) h = 0 := by
        rw [clearAt, keyAt_set_self hhd]
      have hcnt : countOcc d = countOcc d₀ :=
        countOcc_congr_free (by rw [hlen, hlen₀]) (by
          intro y hy
          rw [hlen] at hy
          exact hst.hfree y hy)
      have hcnt2 : countOcc (clearAt d h) + 1 = countOcc d₀ := by
        have := countOcc_set (d := d) (i := h) hhd ((0 : Nat), (default : α))
        rw [if_pos hocch, if_neg (by simp)] at this
        rw [clearAt]
        omega
      refine ⟨clearAt d h, hstep, hlen2, hcnt2, ?_, ?_, ?_⟩
      · intro k v hk
        rw [← hst.hcont k v hk]
        constructor
        · rintro ⟨x, hx, hkx, hvx⟩
          rw [hlen2] at hx
          have hxh : x ≠ h := by
            intro he
            rw [he, hkey2h] at hkx
            exact hk hkx.symm
          rw [hkey2 x hxh] at hkx
          rw [show valAt (clearAt d h) x = valAt d x from by
            rw [clearAt, valAt_set_ne (fun e => hxh e.symm)]] at hvx
          exact ⟨x, hx, hxh, hkx, hvx⟩
        · rintro ⟨x, hx, hxh, hkx, hvx⟩
          refine ⟨x, by rw [hlen2]; exact hx, ?_, ?_⟩
          · rw [hkey2 x hxh]; exact hkx
          · rw [clearAt, valAt_set_ne (fun e => hxh e.symm)]; exact hvx
      · intro x hx y hy hxy hocx hocy
        rw [hlen2] at hx hy
        have hxh : x ≠ h := fun e => hocx (by rw [e]; exact hkey2h)
        have hyh : y ≠ h := fun e => hocy (by rw [e]; exact hkey2h)
        rw [occupied, hkey2 x hxh] at hocx
        rw [occupied, hkey2 y hyh] at hocy
        rw [hkey2 x hxh, hkey2 y hyh]
        exact hst.hnd x hx hxh y hy hyh hxy hocx hocy
      · intro x hx hocx y hy hocy
        rw [hlen2] at hx hy ⊢
        have hxh : x ≠ h := fun e => hocx (by rw [e]; exact hkey2h)
        rw [occupied, hkey2 x hxh] at hocx
        rw [hkey2 x hxh]
        by_cases hyh : y = h
        · rw [hyh]
          have hhm : home c (keyAt d x) < c := home_lt hc
          have hsx : cdist c i x < c := cdist_lt hi hx
          rcases lt_trichotomy (cdist c i x) (cdist c i h) with h1 | h1 | h1
          · exact hst.hbehind x hx hxh hocx h1 h hhlt (le_refl _) (le_of_lt hs)
          · exact absurd (cdist_inj hi hx hhlt h1) hxh
          · rcases lt_trichotomy (cdist c i x) F with h2 | h2 | h2
            · -- x was skipped during this final scan
              have hxpos : ((h + 1) % c + (cdist c i x - cdist c i h - 1)) % c = x := by
                rw [hposeq]
                have he : cdist c i h + 1 + (cdist c i x - cdist c i h - 1)
                    = cdist c i x := by omega
                rw [he]
                exact cdist_add hi hx
              have hsk := hskips (cdist c i x - cdist c i h - 1) (by omega)
              rw [hxpos] at hsk
              exact (skip_geom hi hhlt hx hhm hsk.2 h1).2
            · exfalso
              have : x = (i + F) % c := by
                rw [← h2]
                exact (cdist_add hi hx).symm
              rw [this] at hocx
              exact hocx ((hst.hfree _ (Nat.mod_lt _ hc)).mpr hFfree)
            · -- x lies beyond the first free slot
              have hfs : (i + F) % c < c := Nat.mod_lt _ hc
              have hchx := hst.hch x hx hxh hocx ((i + F) % c) hfs hFfree
              have hsF : cdist c i ((i + F) % c) = F := cdist_of_steps hi hFc
              exact ahead_geom hi hhlt hx hhm hfs hchx (by rw [hsF]; exact hs)
                (by rw [hsF]; exact h2)
        · rw [occupied, hkey2 y hyh] at hocy
          have hy0 : keyAt d₀ y = 0 := (hst.hfree y hy).mp (of_not_not hocy)
          exact hst.hch x hx hxh hocx y hy hy0
    · -- a movable entry breaks the scan: shift it into the hole and recurse
      have hmlt : Nat.find hPex < F - cdist c i h - 1 := by omega
      have hocc := hoccmm (Nat.find hPex) hmlt
      have hbrk : ¬ cyclicMem h
          (home c (keyAt d (((h + 1) % c + Nat.find hPex) % c)))
          (((h + 1) % c + Nat.find hPex) % c) :=
        fun hm => (Nat.find_spec hPex) ⟨hocc, hm⟩
      have hinner := (@shiftInner_first α _ d c h hmask hc
        (Nat.find hPex) (h + 1) d.length
        hskips (by rw [hlen]; omega)).2 hocc hbrk
      have hplt : (((h + 1) % c + Nat.find hPex) % c) < c := Nat.mod_lt _ hc
      have hpltd : (((h + 1) % c + Nat.find hPex) % c) < d.length := by
        rw [hlen]; exact hplt
      have hsp : cdist c i (((h + 1) % c + Nat.find hPex) % c)
          = cdist c i h + 1 + Nat.find hPex := by
        rw [hposeq]
        exact cdist_of_steps hi (by omega)
      have hph : (((h + 1) % c + Nat.find hPex) % c) ≠ h := by
        intro he
        rw [he] at hsp
        omega
      have hentry : d[(((h + 1) % c + Nat.find hPex) % c)]?.getD ((0 : Nat), (default : α))
          = (keyAt d (((h + 1) % c + Nat.find hPex) % c),
             valAt d (((h + 1) % c + Nat.find hPex) % c)) := by
        rw [List.getElem?_eq_getElem hpltd, Option.getD_some,
          keyAt_eq_getElem hpltd, valAt_eq_getElem hpltd]
      have hstep : shiftLoop d (c - 1) (f + 1) h
          = shiftLoop (d.set h (keyAt d (((h + 1) % c + Nat.find hPex) % c),
              valAt d (((h + 1) % c + Nat.find hPex) % c))) (c - 1) f
            (((h + 1) % c + Nat.find hPex) % c) := by
        rw [shiftLoop, hinner]
        show shiftLoop
            (d.set h (d[(((h + 1) % c + Nat.find hPex) % c)]?.getD (0, default)))
            (c - 1) f (((h + 1) % c + Nat.find hPex) % c) = _
        rw [hentry]
      rw [hstep]
      exact shiftLoop_break_step hlen₀ hmask hc hi hik hk₀ hF1 hFc hFfree hFocc
        hfreeσ ih hst hfl hocc hbrk hplt hsp hph hskips hmlt
  
/-- Full correctness of `Delete` for a non-sentinel key: a present key is
removed (and only it), the invariant is preserved and `size` decremented;
deleting an absent key is a strict no-op. -/
theorem del_spec [Inhabited α] {m : PhiMap α} (h : Inv m) {key : Nat} (hkey : key ≠ 0) :
    ∃ m2, m.del key = some m2 ∧ Inv m2 ∧
      ¬ hasK m2.data key ∧
      (∀ k2 v2, k2 ≠ 0 → k2 ≠ key → (hasKV m2.data k2 v2 ↔ hasKV m.data k2 v2)) ∧
      (hasK m.data key →
        countOcc m2.data + 1 = countOcc m.data ∧ m2.size = m.size - 1 ∧
        m2.threshold = m.threshold ∧ m2.data.length = m.data.length ∧ m2.mask = m.mask) ∧
      (¬ hasK m.data key → m2 = m) := by
  classical
  obtain ⟨t, ht, hl⟩ := h.cpow
  have hc : 0 < m.data.length := h.len_pos
  by_cases hpres : hasK m.data key
  · obtain ⟨x, hx, hkx⟩ := hpres
    have hfound := probe_found h hx hkx hkey
    have hocc₀ : occupied m.data x := by rw [occupied, hkx]; exact hkey
    -- the first free offset from the deletion slot
    have hFex : ∃ n, keyAt m.data ((x + n) % m.data.length) = 0 := by
      obtain ⟨y, hy, hy0⟩ := h.exists_free
      refine ⟨cdist m.data.length x y, ?_⟩
      rw [cdist_add hx hy]
      exact hy0
    have hFfree := Nat.find_spec hFex
    have hFmin : ∀ n, n < Nat.find hFex → keyAt m.data ((x + n) % m.data.length) ≠ 0 :=
      fun n hn => Nat.find_min hFex hn
    have hF1 : 1 ≤ Nat.find hFex := by
      rcases Nat.eq_zero_or_pos (Nat.find hFex) with h0 | h0
      · exfalso
        have := hFfree
        rw [h0, Nat.add_zero, Nat.mod_eq_of_lt hx] at this
        rw [this] at hkx
        exact hkey hkx.symm
      · exact h0
    have hFc : Nat.find hFex < m.data.length := by
      obtain ⟨y, hy, hy0⟩ := h.exists_free
      have h1 : Nat.find hFex ≤ cdist m.data.length x y := by
        apply Nat.find_min'
        rw [cdist_add hx hy]
        exact hy0
      have h2 := cdist_lt (c := m.data.length) hx hy
      omega
    have hst0 : ShiftState m.data m.data.length x key (Nat.find hFex) m.data x := by
      refine ⟨rfl, hx, ?_, fun y hy => Iff.rfl, ?_, ?_, ?_, ?_⟩
      · rw [cdist_self hx]; omega
      · intro k v hk
        constructor
        · rintro ⟨z, hz, hzx, hkz, hvz⟩
          refine ⟨⟨z, hz, hkz, hvz⟩, ?_⟩
          intro he
          exact h.nodup z hz x hx hzx (by rw [occupied, hkz]; exact hk) hocc₀
            (by rw [hkz, hkx, he])
        · rintro ⟨⟨z, hz, hkz, hvz⟩, hne⟩
          refine ⟨z, hz, ?_, hkz, hvz⟩
          intro he
          rw [he, hkx] at hkz
          exact hne hkz.symm
      · intro z hz hzx y hy hyx hzy hocz hocy
        exact h.nodup z hz y hy hzy hocz hocy
      · intro z hz hzx hocz y hy hy0
        exact h.chain z hz hocz y hy (fun hcon => hcon hy0)
      · intro z hz hzx hocz hzlt
        rw [cdist_self hx] at hzlt
        omega
    have hFocc : ∀ n, n < Nat.find hFex → occupied m.data ((x + n) % m.data.length) :=
      fun n hn => hFmin n hn
    obtain ⟨d2, hrun, hlen2, hcnt2, hmem2, hnd2, hch2⟩ :=
      @shiftLoop_run α _ m.data m.data.length x key
        (Nat.find hFex) rfl (fun z => by rw [← h.maskEq]; exact h.mask_and z)
        hc hx hkx hkey hF1 hFc hFfree hFocc
        (m.data.length + 1) m.data x hst0 (by rw [cdist_self hx]; omega)
    have hstep : m.del key = some { m with data := d2, size := m.size - 1 } := by
      rw [PhiMap.del, hfound]
      show (m.shiftKeys x).map _ = _
      rw [PhiMap.shiftKeys, h.maskEq, hrun]
      rfl
    refine ⟨_, hstep, ?_, ?_, ?_, ?_, ?_⟩
    · refine ⟨⟨t, ht, by rw [hlen2]; exact hl⟩, by rw [hlen2]; exact h.maskEq,
        hnd2, hch2, ?_, ?_, by rw [hlen2]; exact h.thLt⟩
      · show m.size - 1 = (countOcc d2 : Int)
        have h1 := h.sizeEq
        omega
      · show countOcc d2 ≤ m.threshold
        have h1 := h.sizeLe
        omega
    · rintro ⟨z, hz, hkz⟩
      rw [show ({ m with data := d2, size := m.size - 1 } : PhiMap α).data = d2 from rfl]
        at hz hkz
      have := (hmem2 key (valAt d2 z) hkey).mp ⟨z, hz, hkz, rfl⟩
      exact this.2 rfl
    · intro k2 v2 hk2 hne
      have := hmem2 k2 v2 hk2
      constructor
      · intro h1
        exact (this.mp h1).1
      · intro h1
        exact this.mpr ⟨h1, hne⟩
    · intro _
      refine ⟨hcnt2, rfl, rfl, hlen2, rfl⟩
    · intro hcon
      exact absurd ⟨x, hx, hkx⟩ hcon
  · have habs : ∀ y, y < m.data.length → keyAt m.data y ≠ key := by
      intro y hy hcon
      exact hpres ⟨y, hy, hcon⟩
    obtain ⟨f, hf, hf0, hprobe, _, _⟩ := probe_absent h hkey habs
    have hstep : m.del key = some m := by
      rw [PhiMap.del, hprobe]
      rfl
    exact ⟨m, hstep, h, hpres, fun k2 v2 _ _ => Iff.rfl,
      fun hcon => absurd hcon hpres, fun _ => rfl⟩

/-! ## Abstract association-list semantics (specification side)

Used only to state the operation-sequence claims: an association list with
pairwise distinct, non-sentinel keys is the intended meaning of a table. -/

/-- Abstract `set`: overwrite the key's entry in place, or append it. -/
def absSet (l : List (Nat × α)) (k : Nat) (v : α) : List (Nat × α) :=
  if l.any (fun e => e.1 = k) then l.map (fun e => if e.1 = k then (k, v) else e)
  else l ++ [(k, v)]

/-- Abstract `delete`: drop the key's entry. -/
def absDel (l : List (Nat × α)) (k : Nat) : List (Nat × α) :=
  l.filter (fun e => e.1 ≠ k)

/-- Abstract meaning of one operation. -/
def absApply (l : List (Nat × α)) : Op α → List (Nat × α)
  | .set k v => absSet l k v
  | .del k => absDel l k

/-- Abstract meaning of an operation sequence. -/
def absRun (l : List (Nat × α)) (ops : List (Op α)) : List (Nat × α) :=
  ops.foldl absApply l

/-- The key an operation touches. -/
def Op.key : Op α → Nat
  | .set k _ => k
  | .del k => k

theorem any_key_iff {l : List (Nat × α)} {k : Nat} :
    l.any (fun e => e.1 = k) = true ↔ ∃ v, (k, v) ∈ l := by
  rw [List.any_eq_true]
  constructor
  · rintro ⟨e, he, hek⟩
    have := of_decide_eq_true hek
    exact ⟨e.2, by rw [← this]; exact he⟩
  · rintro ⟨v, hv⟩
    exact ⟨(k, v), hv, decide_eq_true rfl⟩

theorem mem_absSet_self {l : List (Nat × α)} {k : Nat} {v : α} :
    (k, v) ∈ absSet l k v := by
  rw [absSet]
  split
  · rename_i ha
    rw [List.any_eq_true] at ha
    obtain ⟨e, he, hek⟩ := ha
    exact List.mem_map.mpr ⟨e, he, by rw [if_pos (of_decide_eq_true hek)]⟩
  · exact List.mem_append.mpr (Or.inr (List.mem_singleton.mpr rfl))

theorem mem_absSet_other {l : List (Nat × α)} {k k2 : Nat} {v v2 : α} (hne : k2 ≠ k) :
    (k2, v2) ∈ absSet l k v ↔ (k2, v2) ∈ l := by
  rw [absSet]
  split
  · constructor
    · intro hm
      obtain ⟨e, he, hee⟩ := List.mem_map.mp hm
      by_cases hek : e.1 = k
      · rw [if_pos hek] at hee
        exact absurd (congrArg Prod.fst hee).symm hne
      · rw [if_neg hek] at hee
        rw [← hee]
        exact he
    · intro hm
      refine List.mem_map.mpr ⟨(k2, v2), hm, ?_⟩
      rw [if_neg hne]
  · rw [List.mem_append]
    constructor
    · rintro (hm | hm)
      · exact hm
      · exact absurd (congrArg Prod.fst (List.mem_singleton.mp hm)) hne
    · exact Or.inl

theorem mem_absSet_key {l : List (Nat × α)} {k : Nat} {v v2 : α}
    (hm : (k, v2) ∈ absSet l k v) : v2 = v := by
  rw [absSet] at hm
  rcases hem : l.any (fun e => e.1 = k) with _ | _
  · rw [hem] at hm
    simp only [Bool.false_eq_true, if_false] at hm
    rcases List.mem_append.mp hm with h1 | h1
    · exfalso
      have : l.any (fun e => e.1 = k) = true := any_key_iff.mpr ⟨v2, h1⟩
      rw [hem] at this
      exact Bool.false_ne_true this
    · exact (Prod.ext_iff.mp (List.mem_singleton.mp h1)).2
  · rw [hem] at hm
    simp only [if_true] at hm
    obtain ⟨e, he, hee⟩ := List.mem_map.mp hm
    by_cases hek : e.1 = k
    · rw [if_pos hek] at hee
      exact (Prod.ext_iff.mp hee).2.symm
    · rw [if_neg hek] at hee
      exact absurd (congrArg Prod.fst hee) hek

theorem keys_absSet {l : List (Nat × α)} {k : Nat} {v : α}
    (hnd : (l.map Prod.fst).Nodup) : ((absSet l k v).map Prod.fst).Nodup := by
  rw [absSet]
  split
  · rename_i ha
    have : (l.map (fun e => if e.1 = k then (k, v) else e)).map Prod.fst
        = l.map Prod.fst := by
      rw [List.map_map]
      apply List.map_congr_left
      intro e _
      by_cases hek : e.1 = k
      · simp only [Function.comp, if_pos hek]
        rw [hek]
      · simp only [Function.comp, if_neg hek]
    rw [this]
    exact hnd
  · rename_i ha
    rw [List.map_append]
    rw [List.nodup_append]
    refine ⟨hnd, List.nodup_singleton _, ?_⟩
    intro a hal har
    have hak : a = k := by
      simp only [List.map_cons, List.map_nil] at har
      exact List.mem_singleton.mp har
    subst hak
    obtain ⟨e, he, hek⟩ := List.mem_map.mp hal
    have : l.any (fun e => e.1 = a) = true := any_key_iff.mpr ⟨e.2, by
      rw [show (a, e.2) = e from by rw [← hek]]
      exact he⟩
    exact ha this

theorem nonzero_absSet {l : List (Nat × α)} {k : Nat} {v : α}
    (h0 : ∀ e ∈ l, e.1 ≠ 0) (hk : k ≠ 0) : ∀ e ∈ absSet l k v, e.1 ≠ 0 := by
  intro e he
  rw [absSet] at he
  split at he
  · obtain ⟨e2, he2, hee⟩ := List.mem_map.mp he
    by_cases hek : e2.1 = k
    · rw [if_pos hek] at hee
      rw [← hee]
      exact hk
    · rw [if_neg hek] at hee
      rw [← hee]
      exact h0 e2 he2
  · rcases List.mem_append.mp he with h1 | h1
    · exact h0 e h1
    · rw [List.mem_singleton.mp h1]
      exact hk

theorem length_absSet_present {l : List (Nat × α)} {k : Nat} {v : α}
    (hp : ∃ v2, (k, v2) ∈ l) : (absSet l k v).length = l.length := by
  rw [absSet, if_pos (any_key_iff.mpr hp), List.length_map]

theorem length_absSet_absent {l : List (Nat × α)} {k : Nat} {v : α}
    (hp : ¬ ∃ v2, (k, v2) ∈ l) : (absSet l k v).length = l.length + 1 := by
  rw [absSet, if_neg (fun h2 => hp (any_key_iff.mp h2)), List.length_append,
    List.length_singleton]

theorem mem_absDel {l : List (Nat × α)} {k k2 : Nat} {v2 : α} :
    (k2, v2) ∈ absDel l k ↔ (k2, v2) ∈ l ∧ k2 ≠ k := by
  rw [absDel, List.mem_filter]
  constructor
  · rintro ⟨h1, h2⟩
    exact ⟨h1, of_decide_eq_true h2⟩
  · rintro ⟨h1, h2⟩
    exact ⟨h1, decide_eq_true h2⟩

theorem keys_absDel {l : List (Nat × α)} {k : Nat}
    (hnd : (l.map Prod.fst).Nodup) : ((absDel l k).map Prod.fst).Nodup :=
  ((List.filter_sublist l).map Prod.fst).nodup hnd

theorem nonzero_absDel {l : List (Nat × α)} {k : Nat}
    (h0 : ∀ e ∈ l, e.1 ≠ 0) : ∀ e ∈ absDel l k, e.1 ≠ 0 :=
  fun e he => h0 e (List.mem_filter.mp he).1

theorem length_absDel_present {l : List (Nat × α)} {k : Nat}
    (hnd : (l.map Prod.fst).Nodup) (hp : ∃ v, (k, v) ∈ l) :
    (absDel l k).length + 1 = l.length := by
  induction l with
  | nil =>
    obtain ⟨v, hv⟩ := hp
    exact absurd hv (List.not_mem_nil _)
  | cons e l ih =>
    rw [absDel, List.filter_cons]
    rw [List.map_cons, List.nodup_cons] at hnd
    by_cases hek : e.1 = k
    · rw [if_neg (by simp [hek])]
      have hself : l.filter (fun e2 => decide (e2.1 ≠ k)) = l := by
        rw [List.filter_eq_self]
        intro a ha
        apply decide_eq_true
        intro hak
        exact hnd.1 (by
          rw [hek, ← hak]
          exact List.mem_map.mpr ⟨a, ha, rfl⟩)
      rw [show (List.filter (fun e2 => decide (e2.1 ≠ k)) l) = l from hself,
        List.length_cons]
    · rw [if_pos (by simp [hek])]
      obtain ⟨v, hv⟩ := hp
      rcases List.mem_cons.mp hv with h1 | h1
      · exact absurd (congrArg Prod.fst h1).symm hek
      · rw [List.length_cons, List.length_cons, ← ih hnd.2 ⟨v, h1⟩]
        rfl

theorem length_absDel_absent {l : List (Nat × α)} {k : Nat}
    (hp : ¬ ∃ v, (k, v) ∈ l) : absDel l k = l := by
  rw [absDel, List.filter_eq_self]
  intro e he
  apply decide_eq_true
  intro hek
  exact hp ⟨e.2, by rw [show (k, e.2) = e from by rw [← hek]]; exact he⟩

/-! ## Refinement: the table simulates the abstract association list -/

/-- The table `m` represents the association list `l`: every model entry is a
list entry and vice versa, and `size` agrees with the list length. -/
def Abs [Inhabited α] (m : PhiMap α) (l : List (Nat × α)) : Prop :=
  (∀ e ∈ l, e.1 ≠ 0) ∧ (l.map Prod.fst).Nodup ∧
    (∀ k v, k ≠ 0 → (hasKV m.data k v ↔ (k, v) ∈ l)) ∧ countOcc m.data = l.length

theorem hasKV_unique [Inhabited α] {d : List (Nat × α)} (hnd : dataNodup d)
    {k : Nat} {v1 v2 : α} (hk : k ≠ 0) (h1 : hasKV d k v1) (h2 : hasKV d k v2) :
    v1 = v2 := by
  obtain ⟨x, hx, hkx, hvx⟩ := h1
  obtain ⟨y, hy, hky, hvy⟩ := h2
  by_cases hxy : x = y
  · rw [← hvx, ← hvy, hxy]
  · exact absurd (hkx.trans hky.symm)
      (hnd x hx y hy hxy (show keyAt d x ≠ 0 from by rw [hkx]; exact hk)
        (show keyAt d y ≠ 0 from by rw [hky]; exact hk))

theorem abs_hasK_iff [Inhabited α] {m : PhiMap α} {l : List (Nat × α)}
    (habs : Abs m l) {k : Nat} (hk : k ≠ 0) :
    hasK m.data k ↔ ∃ v, (k, v) ∈ l := by
  constructor
  · rintro ⟨x, hx, hkx⟩
    exact ⟨valAt m.data x, (habs.2.2.1 k _ hk).mp ⟨x, hx, hkx, rfl⟩⟩
  · rintro ⟨v, hv⟩
    obtain ⟨x, hx, hkx, -⟩ := (habs.2.2.1 k v hk).mpr hv
    exact ⟨x, hx, hkx⟩

theorem applyOp_refines [Inhabited α] {m : PhiMap α} {l : List (Nat × α)}
    (hinv : Inv m) (habs : Abs m l) (op : Op α) (hop : op.key ≠ 0) :
    ∃ m2, applyOp m op = some m2 ∧ Inv m2 ∧ Abs m2 (absApply l op) := by
  obtain ⟨h0, hnd, hcont, hlen⟩ := habs
  cases op with
  | set k v =>
    replace hop : k ≠ 0 := hop
    obtain ⟨m2, hset, hinv2, hstore, hother, hpres2, habsent, -⟩ := set_spec hinv hop v
    refine ⟨m2, hset, hinv2, nonzero_absSet h0 hop, keys_absSet hnd, ?_, ?_⟩
    · intro k2 v2 hk2
      by_cases hke : k2 = k
      · subst hke
        constructor
        · intro h2
          rw [hasKV_unique hinv2.nodup hk2 h2 hstore]
          exact mem_absSet_self
        · intro h2
          rw [mem_absSet_key h2]
          exact hstore
      · rw [show absApply l (Op.set k v) = absSet l k v from rfl,
          hother k2 v2 hk2 hke, hcont k2 v2 hk2, mem_absSet_other hke]
    · rw [show absApply l (Op.set k v) = absSet l k v from rfl]
      by_cases hk3 : hasK m.data k
      · rw [length_absSet_present
          ((abs_hasK_iff ⟨h0, hnd, hcont, hlen⟩ hop).mp hk3), (hpres2 hk3).1, hlen]
      · rw [length_absSet_absent
          (fun hex => hk3 ((abs_hasK_iff ⟨h0, hnd, hcont, hlen⟩ hop).mpr hex)),
          habsent hk3, hlen]
  | del k =>
    replace hop : k ≠ 0 := hop
    obtain ⟨m2, hdel, hinv2, hgone, hother, hpres2, habsent⟩ := del_spec hinv hop
    refine ⟨m2, hdel, hinv2, nonzero_absDel h0, keys_absDel hnd, ?_, ?_⟩
    · intro k2 v2 hk2
      by_cases hke : k2 = k
      · subst hke
        constructor
        · intro h2
          exact absurd ⟨h2.choose, h2.choose_spec.1, h2.choose_spec.2.1⟩ hgone
        · intro h2
          exact absurd (mem_absDel.mp h2).2 (fun h3 => h3 rfl)
      · rw [show absApply l (Op.del k) = absDel l k from rfl,
          hother k2 v2 hk2 hke, hcont k2 v2 hk2, mem_absDel]
        exact (and_iff_left hke).symm
    · rw [show absApply l (Op.del k) = absDel l k from rfl]
      by_cases hk3 : hasK m.data k
      · have h1 := (hpres2 hk3).1
        have h2 := length_absDel_present hnd
          ((abs_hasK_iff ⟨h0, hnd, hcont, hlen⟩ hop).mp hk3)
        omega
      · rw [habsent hk3, hlen, length_absDel_absent
          (fun hex => hk3 ((abs_hasK_iff ⟨h0, hnd, hcont, hlen⟩ hop).mpr hex))]

theorem runOps_refines [Inhabited α] :
    ∀ (ops : List (Op α)) (m : PhiMap α) (l : List (Nat × α)),
      Inv m → Abs m l → (∀ op ∈ ops, op.key ≠ 0) →
      ∃ m2, runOps m ops = some m2 ∧ Inv m2 ∧ Abs m2 (absRun l ops)
  | [], m, l, hinv, habs, _ => ⟨m, rfl, hinv, habs⟩
  | op :: ops, m, l, hinv, habs, hops => by
    obtain ⟨m1, hap, hinv1, habs1⟩ :=
      applyOp_refines hinv habs op (hops op (List.mem_cons_self op ops))
    obtain ⟨m2, hrun, hinv2, habs2⟩ := runOps_refines ops m1 (absApply l op) hinv1 habs1
      (fun o ho => hops o (List.mem_cons_of_mem op ho))
    refine ⟨m2, ?_, hinv2, habs2⟩
    rw [runOps, List.foldl_cons]
    show List.foldl _ ((some m).bind (fun m3 => applyOp m3 op)) ops = some m2
    rw [Option.some_bind, hap]
    exact hrun

theorem abs_nil_newPhiMap [Inhabited α] : Abs (newPhiMap (α := α)) [] := by
  obtain ⟨hrk, hrcnt, -, -⟩ := replicate_free (α := α) (arraySize 32)
  have hdata : (newPhiMap (α := α)).data
      = List.replicate (arraySize 32) ((0 : Nat), (default : α)) := rfl
  refine ⟨fun e he => absurd he (List.not_mem_nil e), List.nodup_nil, ?_, ?_⟩
  · intro k v hk
    rw [hasKV_iff_mem, hdata]
    constructor
    · intro hm
      exact absurd (congrArg Prod.fst (List.eq_of_mem_replicate hm)) hk
    · intro hm
      exact absurd hm (List.not_mem_nil _)
  · rw [hdata, hrcnt]
    rfl

/-! ## Helper lemmas for the claim-level theorems -/

theorem get_hasKV [Inhabited α] {m : PhiMap α} (h : Inv m) {key : Nat} {v : α}
    (hkey : key ≠ 0) (hkv : hasKV m.data key v) :
    m.get key = some v ∧ m.has key = some true := by
  obtain ⟨x, hx, hkx, hvx⟩ := hkv
  obtain ⟨h1, h2⟩ := get_of_mem h hx hkx hkey
  rw [hvx] at h1
  exact ⟨h1, h2⟩

theorem absRun_untouched {key : Nat} {v : α} :
    ∀ (ops : List (Op α)) (l : List (Nat × α)), (∀ op ∈ ops, Op.key op ≠ key) →
    ((key, v) ∈ absRun l ops ↔ (key, v) ∈ l)
  | [], l, _ => Iff.rfl
  | op :: ops, l, hne => by
    have hstep : absRun l (op :: ops) = absRun (absApply l op) ops := rfl
    rw [hstep, absRun_untouched ops (absApply l op)
      (fun o ho => hne o (List.mem_cons_of_mem op ho))]
    have hk := hne op (List.mem_cons_self op ops)
    cases op with
    | set k2 v2 =>
      exact mem_absSet_other (fun h2 => hk h2.symm)
    | del k2 =>
      rw [show absApply l (Op.del k2) = absDel l k2 from rfl, mem_absDel]
      exact and_iff_left (fun h2 => hk h2.symm)

theorem absRun_sets_append :
    ∀ (entries l : List (Nat × α)), (entries.map Prod.fst).Nodup →
    (∀ k, k ∈ entries.map Prod.fst → k ∉ l.map Prod.fst) →
    absRun l (entries.map fun e => Op.set e.1 e.2) = l ++ entries
  | [], l, _, _ => (List.append_nil l).symm
  | e :: entries, l, hnd, hdisj => by
    rw [List.map_cons, List.nodup_cons] at hnd
    have hstep : absRun l ((e :: entries).map fun e => Op.set e.1 e.2)
        = absRun (absSet l e.1 e.2) (entries.map fun e => Op.set e.1 e.2) := rfl
    have habs : absSet l e.1 e.2 = l ++ [e] := by
      rw [absSet, if_neg, show (e.1, e.2) = e from by rw []]
      intro hany
      obtain ⟨v2, hv2⟩ := any_key_iff.mp hany
      exact hdisj e.1 (List.mem_cons_self _ _) (List.mem_map.mpr ⟨(e.1, v2), hv2, rfl⟩)
    rw [hstep, habs, absRun_sets_append entries (l ++ [e]) hnd.2 ?_,
      List.append_assoc, List.singleton_append]
    intro k hk hkl
    rw [List.map_append, List.mem_append] at hkl
    rcases hkl with h1 | h1
    · exact hdisj k (List.mem_cons_of_mem _ hk) h1
    · rw [List.map_singleton, List.mem_singleton] at h1
      rw [h1] at hk
      exact hnd.1 hk

theorem absRun_dels_length :
    ∀ (dks : List Nat) (l : List (Nat × α)), (l.map Prod.fst).Nodup → dks.Nodup →
    (∀ k ∈ dks, k ∈ l.map Prod.fst) →
    (absRun l (dks.map Op.del)).length + dks.length = l.length
  | [], l, _, _, _ => rfl
  | k :: dks, l, hnd, hdnd, hsub => by
    rw [List.nodup_cons] at hdnd
    have hstep : absRun l ((k :: dks).map Op.del)
        = absRun (absDel l k) (dks.map Op.del) := rfl
    obtain ⟨e, he, hek⟩ := List.mem_map.mp (hsub k (List.mem_cons_self _ _))
    have hpresent : ∃ v, (k, v) ∈ l := ⟨e.2, by rw [show (k, e.2) = e from by rw [← hek]]; exact he⟩
    have hlen := length_absDel_present hnd hpresent
    have hrec := absRun_dels_length dks (absDel l k) (keys_absDel hnd) hdnd.2 ?_
    · rw [hstep, List.length_cons]
      omega
    · intro k2 hk2
      obtain ⟨e2, he2, hek2⟩ := List.mem_map.mp (hsub k2 (List.mem_cons_of_mem _ hk2))
      refine List.mem_map.mpr ⟨e2, ?_, hek2⟩
      rw [absDel, List.mem_filter]
      refine ⟨he2, decide_eq_true ?_⟩
      rw [hek2]
      intro hkk
      rw [hkk] at hk2
      exact hdnd.1 hk2

theorem probeLoop_premask {d : List (Nat × α)} {key c : Nat}
    (hmask : ∀ x : Nat, x &&& (c - 1) = x % c) :
    ∀ (fuel ptr : Nat), probeLoop d (c - 1) key fuel ptr
      = probeLoop d (c - 1) key fuel (ptr % c)
  | 0, _ => rfl
  | fuel + 1, ptr => by
    rw [probeLoop, probeLoop]
    simp only [hmask, Nat.mod_mod_of_dvd _ (dvd_refl c)]

theorem mem_fst_inj {β : Type} {l : List (Nat × β)} (hnd : (l.map Prod.fst).Nodup)
    {a b : Nat × β} (ha : a ∈ l) (hb : b ∈ l) (hab : a.1 = b.1) : a = b := by
  induction l with
  | nil => exact absurd ha (List.not_mem_nil a)
  | cons e l ih =>
    rw [List.map_cons, List.nodup_cons] at hnd
    rcases List.mem_cons.mp ha with h1 | h1 <;> rcases List.mem_cons.mp hb with h2 | h2
    · rw [h1, h2]
    · exfalso
      apply hnd.1
      refine List.mem_map.mpr ⟨b, h2, ?_⟩
      rw [← hab, h1]
    · exfalso
      apply hnd.1
      refine List.mem_map.mpr ⟨a, h1, ?_⟩
      rw [hab, h2]
    · exact ih hnd.2 h1 h2

/-! ## The claims -/

/-- C1: for every key other than the reserved sentinel 0, and every sequence of
table operations ending in `set(key, v)` with no later `delete(key)` or
overwriting `set(key, _)`, `get(key)` returns `v` and `has(key)` returns true,
including when intervening insertions triggered a doubling rehash. -/
theorem C1_set_get_roundtrip [Inhabited α] (ops1 ops2 : List (Op α)) (key : Nat) (v : α)
    (hkey : key ≠ 0) (hops1 : ∀ op ∈ ops1, Op.key op ≠ 0)
    (hops2 : ∀ op ∈ ops2, Op.key op ≠ 0)
    (hnotouch : ∀ op ∈ ops2, Op.key op ≠ key) :
    ∃ m2, runOps (newPhiMap (α := α)) (ops1 ++ Op.set key v :: ops2) = some m2 ∧
      m2.get key = some v ∧ m2.has key = some true := by
  have hall : ∀ op ∈ ops1 ++ Op.set key v :: ops2, Op.key op ≠ 0 := by
    intro op hop
    rcases List.mem_append.mp hop with h1 | h1
    · exact hops1 op h1
    · rcases List.mem_cons.mp h1 with h2 | h2
      · rw [h2]; exact hkey
      · exact hops2 op h2
  obtain ⟨m2, hrun, hinv2, habs2⟩ :=
    runOps_refines (ops1 ++ Op.set key v :: ops2) (newPhiMap (α := α)) []
      inv_newPhiMap abs_nil_newPhiMap hall
  refine ⟨m2, hrun, ?_⟩
  have hsplit : absRun ([] : List (Nat × α)) (ops1 ++ Op.set key v :: ops2)
      = absRun (absSet (absRun [] ops1) key v) ops2 := by
    rw [absRun, List.foldl_append, List.foldl_cons]
    rfl
  have hmem : (key, v) ∈ absRun ([] : List (Nat × α)) (ops1 ++ Op.set key v :: ops2) := by
    rw [hsplit]
    exact (absRun_untouched ops2 _ hnotouch).mpr mem_absSet_self
  exact get_hasKV hinv2 hkey ((habs2.2.2.1 key v hkey).mpr hmem)

theorem C1_set_get_roundtrip_witness :
    ∃ m2, runOps (newPhiMap (α := Nat))
        ([Op.set 1 10] ++ Op.set 3 30 :: [Op.set 2 20]) = some m2 ∧
      m2.get 3 = some 30 ∧ m2.has 3 = some true :=
  C1_set_get_roundtrip [Op.set 1 10] [Op.set 2 20] 3 30 (by decide)
    (by decide) (by decide) (by decide)

/-- C2: on any reachable table, `delete(k)` for a non-sentinel key `k` removes
exactly `k`: afterwards `get(k)` reports not-found (zero value, `has` false),
every other present key keeps its value under `get`, and when `k` was absent
the table is left completely unchanged. -/
theorem C2_delete_exact [Inhabited α] {m : PhiMap α} (h : Inv m) {k : Nat} (hk : k ≠ 0) :
    ∃ m2, m.del k = some m2 ∧
      m2.get k = some default ∧ m2.has k = some false ∧
      (∀ k2 v2, k2 ≠ 0 → k2 ≠ k → hasKV m.data k2 v2 → m2.get k2 = some v2) ∧
      (¬ hasK m.data k → m2 = m) := by
  obtain ⟨m2, hdel, hinv2, hgone, hother, hpres2, habsent⟩ := del_spec h hk
  refine ⟨m2, hdel, ?_, ?_, ?_, habsent⟩
  · exact (get_of_absent hinv2 hk (hasK_not_iff.mp hgone)).1
  · exact (get_of_absent hinv2 hk (hasK_not_iff.mp hgone)).2
  · intro k2 v2 hk2 hke hkv
    exact (get_hasKV hinv2 hk2 ((hother k2 v2 hk2 hke).mpr hkv)).1

theorem C2_delete_exact_witness :
    ∃ m2, (newPhiMap (α := Nat)).del 5 = some m2 ∧
      m2.get 5 = some default ∧ m2.has 5 = some false ∧
      (∀ k2 v2, k2 ≠ 0 → k2 ≠ 5 →
        hasKV (newPhiMap (α := Nat)).data k2 v2 → m2.get k2 = some v2) ∧
      (¬ hasK (newPhiMap (α := Nat)).data 5 → m2 = newPhiMap (α := Nat)) :=
  C2_delete_exact inv_newPhiMap (by decide)

/-- C7: starting from an empty table, inserting the entries of any duplicate-free
non-sentinel key list and then deleting any duplicate-free sublist of those keys
leaves `size() = N - M`; and on any reachable table an overwriting `set` of an
existing key leaves `size()` unchanged. -/
theorem C7_size_accounting [Inhabited α] (entries : List (Nat × α)) (dks : List Nat)
    (hnd : (entries.map Prod.fst).Nodup) (h0 : ∀ e ∈ entries, e.1 ≠ 0)
    (hdnd : dks.Nodup) (hdsub : ∀ k ∈ dks, k ∈ entries.map Prod.fst) :
    (∃ m2, runOps (newPhiMap (α := α))
        ((entries.map fun e => Op.set e.1 e.2) ++ dks.map Op.del) = some m2 ∧
      m2.size = (entries.length : Int) - (dks.length : Int)) ∧
    (∀ m : PhiMap α, Inv m → ∀ k v, k ≠ 0 → hasK m.data k →
      ∃ m3, m.set k v = some m3 ∧ m3.size = m.size) := by
  constructor
  · have hd0 : ∀ k ∈ dks, k ≠ 0 := by
      intro k hk
      obtain ⟨e, he, hek⟩ := List.mem_map.mp (hdsub k hk)
      rw [← hek]
      exact h0 e he
    have hall : ∀ op ∈ (entries.map fun e => Op.set e.1 e.2) ++ dks.map Op.del,
        Op.key op ≠ 0 := by
      intro op hop
      rcases List.mem_append.mp hop with h1 | h1
      · obtain ⟨e, he, hee⟩ := List.mem_map.mp h1
        rw [← hee]
        exact h0 e he
      · obtain ⟨k, hk, hke⟩ := List.mem_map.mp h1
        rw [← hke]
        exact hd0 k hk
    obtain ⟨m2, hrun, hinv2, habs2⟩ :=
      runOps_refines _ (newPhiMap (α := α)) [] inv_newPhiMap abs_nil_newPhiMap hall
    refine ⟨m2, hrun, ?_⟩
    have hsplit : absRun ([] : List (Nat × α))
          ((entries.map fun e => Op.set e.1 e.2) ++ dks.map Op.del)
        = absRun (absRun [] (entries.map fun e => Op.set e.1 e.2)) (dks.map Op.del) := by
      rw [absRun, List.foldl_append]
      rfl
    have hsets : absRun ([] : List (Nat × α)) (entries.map fun e => Op.set e.1 e.2)
        = entries := by
      rw [absRun_sets_append entries [] hnd (fun k _ hk => absurd hk (by
        rw [List.map_nil]; exact List.not_mem_nil k)), List.nil_append]
    have hdels := absRun_dels_length dks entries hnd hdnd hdsub
    have hsz : m2.size = (countOcc m2.data : Int) := hinv2.sizeEq
    have hcnt : countOcc m2.data
        = (absRun ([] : List (Nat × α))
            ((entries.map fun e => Op.set e.1 e.2) ++ dks.map Op.del)).length :=
      habs2.2.2.2
    rw [hsplit, hsets] at hcnt
    rw [hsz, hcnt]
    omega
  · intro m hm k v hk hpre
    obtain ⟨m3, hset, _, _, _, hpres3, _⟩ := set_spec hm hk v
    exact ⟨m3, hset, (hpres3 hpre).2.1⟩

theorem C7_size_accounting_witness :
    (∃ m2, runOps (newPhiMap (α := Nat))
        (([(1, 10), (2, 20), (3, 30)].map fun e => Op.set e.1 e.2)
          ++ [2, 3].map Op.del) = some m2 ∧
      m2.size = ((3 : Nat) : Int) - ((2 : Nat) : Int)) ∧
    (∀ m : PhiMap Nat, Inv m → ∀ k v, k ≠ 0 → hasK m.data k →
      ∃ m3, m.set k v = some m3 ∧ m3.size = m.size) :=
  C7_size_accounting [(1, 10), (2, 20), (3, 30)] [2, 3] (by decide) (by decide)
    (by decide) (by decide)

/-- C8: `size < capacity` holds on every reachable table and is preserved by
`set`, `delete`, `copy` and `rehash` on non-sentinel keys; a `set` finding the
table at or above its threshold doubles the capacity via rehash instead of
exceeding it; and every probe loop terminates (the probe returns a result
within one sweep). -/
theorem C8_headroom_invariant [Inhabited α] (m : PhiMap α) (h : Inv m) :
    m.size < (m.data.length : Int) ∧
    (∀ key : Nat, key ≠ 0 → (m.probe key).isSome = true) ∧
    (∀ op : Op α, Op.key op ≠ 0 →
      ∃ m2, applyOp m op = some m2 ∧ Inv m2 ∧ m2.size < (m2.data.length : Int)) ∧
    (∀ (key : Nat) (v : α), key ≠ 0 → ¬ hasK m.data key →
      m.size ≥ (m.threshold : Int) →
      ∃ m2, m.set key v = some m2 ∧ m2.data.length = m.data.length * 2) ∧
    (∃ m2, m.copy = some m2 ∧ Inv m2 ∧ m2.size < (m2.data.length : Int)) ∧
    (∃ m2, m.rehash = some m2 ∧ m2.size < (m2.data.length : Int)) := by
  have hlt : ∀ m3 : PhiMap α, Inv m3 → m3.size < (m3.data.length : Int) := by
    intro m3 h3
    have h1 := h3.sizeEq
    have h2 := h3.sizeLe
    have h4 := h3.thLt
    omega
  refine ⟨hlt m h, ?_, ?_, ?_, ?_, ?_⟩
  · intro key hk
    by_cases hp : hasK m.data key
    · obtain ⟨x, hx, hkx⟩ := hp
      rw [probe_found h hx hkx hk]
      rfl
    · obtain ⟨f, _, _, hpr, _, _⟩ := probe_absent h hk (hasK_not_iff.mp hp)
      rw [hpr]
      rfl
  · intro op hop
    cases op with
    | set k v =>
      obtain ⟨m2, hset, hinv2, -⟩ := set_spec h hop v
      exact ⟨m2, hset, hinv2, hlt m2 hinv2⟩
    | del k =>
      obtain ⟨m2, hdel, hinv2, -⟩ := del_spec h hop
      exact ⟨m2, hdel, hinv2, hlt m2 hinv2⟩
  · intro key v hk hnk hge
    obtain ⟨m2, hset, _, _, _, _, _, _, hdbl⟩ := set_spec h hk v
    exact ⟨m2, hset, (hdbl hnk hge).1⟩
  · obtain ⟨m2, hcp, hinv2, -⟩ := copy_spec h
    exact ⟨m2, hcp, hinv2, hlt m2 hinv2⟩
  · obtain ⟨t, ht, hl⟩ := h.cpow
    obtain ⟨m2, hre, hrlen, _, _, _, _, _, hrsz, -⟩ := rehash_spec hl ht h.nodup h.chain
    refine ⟨m2, hre, ?_⟩
    have hc1 := countOcc_le_length m.data
    have hc2 : 0 < m.data.length := h.len_pos
    rw [hrsz, hrlen]
    push_cast
    omega

theorem C8_headroom_invariant_witness :
    (newPhiMap (α := Nat)).size < ((newPhiMap (α := Nat)).data.length : Int) ∧
    (∀ key : Nat, key ≠ 0 → ((newPhiMap (α := Nat)).probe key).isSome = true) ∧
    (∀ op : Op Nat, Op.key op ≠ 0 →
      ∃ m2, applyOp (newPhiMap (α := Nat)) op = some m2 ∧ Inv m2 ∧
        m2.size < (m2.data.length : Int)) ∧
    (∀ (key : Nat) (v : Nat), key ≠ 0 → ¬ hasK (newPhiMap (α := Nat)).data key →
      (newPhiMap (α := Nat)).size ≥ ((newPhiMap (α := Nat)).threshold : Int) →
      ∃ m2, (newPhiMap (α := Nat)).set key v = some m2 ∧
        m2.data.length = (newPhiMap (α := Nat)).data.length * 2) ∧
    (∃ m2, (newPhiMap (α := Nat)).copy = some m2 ∧ Inv m2 ∧
      m2.size < (m2.data.length : Int)) ∧
    (∃ m2, (newPhiMap (α := Nat)).rehash = some m2 ∧
      m2.size < (m2.data.length : Int)) :=
  C8_headroom_invariant (newPhiMap (α := Nat)) inv_newPhiMap

/-- C9: on every reachable table the probe start index of `get`/`has`/`set`/
`delete` is `((key * 0x9E3779B9) XOR ((key * 0x9E3779B9) >> 16)) & mask` in
64-bit arithmetic with `mask = capacity - 1`, equal to the hash modulo the
capacity; each loop iteration either stops at the current index or advances it
by exactly 1 modulo the capacity, so the probe result is determined by the
first stopping slot along `(start + j) mod capacity`. -/
theorem C9_probe_arithmetic [Inhabited α] (m : PhiMap α) (h : Inv m) (key : Nat) :
    phiMix key
      = ((key * 0x9E3779B9) % 2 ^ 64) ^^^ (((key * 0x9E3779B9) % 2 ^ 64) >>> 16) ∧
    m.mask = m.data.length - 1 ∧
    phiMix key &&& m.mask = phiMix key % m.data.length ∧
    (∀ fuel ptr : Nat,
      probeLoop m.data m.mask key (fuel + 1) ptr
        = if keyAt m.data (ptr % m.data.length) = key
            then some (ProbeHit.found (ptr % m.data.length))
          else if keyAt m.data (ptr % m.data.length) = 0
            then some (ProbeHit.free (ptr % m.data.length))
          else probeLoop m.data m.mask key fuel
            ((ptr % m.data.length + 1) % m.data.length)) ∧
    (∃ n, n < m.data.length ∧
      (∀ mm < n,
        ¬ stopP m.data key ((phiMix key % m.data.length + mm) % m.data.length)) ∧
      stopP m.data key ((phiMix key % m.data.length + n) % m.data.length) ∧
      m.probe key
        = some (mkHit m.data key ((phiMix key % m.data.length + n) % m.data.length))) := by
  refine ⟨?_, h.maskEq, h.mask_and _, ?_, ?_⟩
  · have h64 : (2 : Nat) ^ 64 = U64 := by norm_num [U64]
    rw [h64]
    rfl
  · intro fuel ptr
    conv_lhs => rw [probeLoop]
    simp only [h.mask_and]
    by_cases h1 : keyAt m.data (ptr % m.data.length) = key
    · rw [if_pos h1, if_pos h1]
    · rw [if_neg h1, if_neg h1]
      by_cases h2 : keyAt m.data (ptr % m.data.length) = 0
      · rw [if_pos h2, if_pos h2]
      · rw [if_neg h2, if_neg h2, h.maskEq]
        exact probeLoop_premask
          (fun x => by rw [← h.maskEq]; exact h.mask_and x) fuel _
  · obtain ⟨n, h1, h2, h3, h4⟩ := probe_spec m h key
    exact ⟨n, h1, h2, h3, h4⟩

theorem C9_probe_arithmetic_witness :
    phiMix 3
      = ((3 * 0x9E3779B9) % 2 ^ 64) ^^^ (((3 * 0x9E3779B9) % 2 ^ 64) >>> 16) ∧
    (newPhiMap (α := Nat)).mask = (newPhiMap (α := Nat)).data.length - 1 ∧
    phiMix 3 &&& (newPhiMap (α := Nat)).mask
      = phiMix 3 % (newPhiMap (α := Nat)).data.length ∧
    (∀ fuel ptr : Nat,
      probeLoop (newPhiMap (α := Nat)).data (newPhiMap (α := Nat)).mask 3 (fuel + 1) ptr
        = if keyAt (newPhiMap (α := Nat)).data (ptr % (newPhiMap (α := Nat)).data.length) = 3
            then some (ProbeHit.found (ptr % (newPhiMap (α := Nat)).data.length))
          else if keyAt (newPhiMap (α := Nat)).data
              (ptr % (newPhiMap (α := Nat)).data.length) = 0
            then some (ProbeHit.free (ptr % (newPhiMap (α := Nat)).data.length))
          else probeLoop (newPhiMap (α := Nat)).data (newPhiMap (α := Nat)).mask 3 fuel
            ((ptr % (newPhiMap (α := Nat)).data.length + 1)
              % (newPhiMap (α := Nat)).data.length)) ∧
    (∃ n, n < (newPhiMap (α := Nat)).data.length ∧
      (∀ mm < n,
        ¬ stopP (newPhiMap (α := Nat)).data 3
          ((phiMix 3 % (newPhiMap (α := Nat)).data.length + mm)
            % (newPhiMap (α := Nat)).data.length)) ∧
      stopP (newPhiMap (α := Nat)).data 3
        ((phiMix 3 % (newPhiMap (α := Nat)).data.length + n)
          % (newPhiMap (α := Nat)).data.length) ∧
      (newPhiMap (α := Nat)).probe 3
        = some (mkHit (newPhiMap (α := Nat)).data 3
            ((phiMix 3 % (newPhiMap (α := Nat)).data.length + n)
              % (newPhiMap (α := Nat)).data.length))) :=
  C9_probe_arithmetic (newPhiMap (α := Nat)) inv_newPhiMap 3

set_option maxRecDepth 100000 in
/-- C10: on a freshly created empty table, `delete(0)` is not an absent-key
no-op: the probe's key-equality test matches the free-slot sentinel at slot 0
(`found 0`), the backward-shift procedure runs and succeeds, and `size` is
decremented, so `Size()` afterwards returns `-1`. -/
theorem C10_delete_sentinel_on_empty :
    (newPhiMap (α := Nat)).probe 0 = some (ProbeHit.found 0) ∧
    ((newPhiMap (α := Nat)).shiftKeys 0).isSome = true ∧
    ((newPhiMap (α := Nat)).del 0).map (fun m2 => m2.size) = some (-1) := by
  decide

set_option maxRecDepth 100000 in
/-- C5 counterexample: inserting 38 distinct keys into a fresh table brings
`size` to the threshold 38 at capacity 64; `Copy` then doubles the capacity to
128 but carries the stale threshold 38 over, so the copy violates
`threshold = floor(capacity * 0.6) = 76`. -/
theorem C5_counterexample :
    ((runOps (newPhiMap (α := Nat))
        ((List.range 38).map fun i => Op.set (i + 1) 0)).bind PhiMap.copy).map
      (fun mc => (mc.data.length, mc.threshold)) = some (128, 38) ∧
    calcThreshold 128 = 76 ∧ (38 : Nat) ≠ 76 := by
  decide

/-- C5 amended: `threshold = floor(capacity * 0.6)` holds after construction
and after every rehash, but `Copy` carries the source's `threshold` field over
unchanged (so after a capacity-doubling copy the relation does not hold). -/
theorem C5_amended_threshold [Inhabited α] (m : PhiMap α) (h : Inv m) :
    (newPhiMap (α := α)).threshold = calcThreshold (newPhiMap (α := α)).data.length ∧
    (∃ m2, m.rehash = some m2 ∧ m2.threshold = calcThreshold m2.data.length) ∧
    (∃ m2, m.copy = some m2 ∧ m2.threshold = m.threshold) := by
  refine ⟨?_, ?_, ?_⟩
  · have hlen : (newPhiMap (α := α)).data.length = arraySize 32 := by
      rw [show (newPhiMap (α := α)).data
          = List.replicate (arraySize 32) ((0 : Nat), (default : α)) from rfl,
        List.length_replicate]
    rw [hlen]
    rfl
  · obtain ⟨t, ht, hl⟩ := h.cpow
    obtain ⟨m2, hre, hrlen, _, hrth, -⟩ := rehash_spec hl ht h.nodup h.chain
    exact ⟨m2, hre, by rw [hrth, hrlen]⟩
  · obtain ⟨m2, hcp, _, hth, -⟩ := copy_spec h
    exact ⟨m2, hcp, hth⟩

theorem C5_amended_threshold_witness :
    (newPhiMap (α := Nat)).threshold = calcThreshold (newPhiMap (α := Nat)).data.length ∧
    (∃ m2, (newPhiMap (α := Nat)).rehash = some m2 ∧
      m2.threshold = calcThreshold m2.data.length) ∧
    (∃ m2, (newPhiMap (α := Nat)).copy = some m2 ∧
      m2.threshold = (newPhiMap (α := Nat)).threshold) :=
  C5_amended_threshold (newPhiMap (α := Nat)) inv_newPhiMap

set_option maxRecDepth 100000 in
/-- C6 counterexample: `Set` performs no sentinel check at the boundary: on a
fresh table `set(0, 42)` succeeds, `size` becomes 1 (not unchanged 0), the
backing store changes, and `get(0)` afterwards returns 42. -/
theorem C6_counterexample :
    ((newPhiMap (α := Nat)).set 0 42).map
      (fun m2 => (m2.size, m2.get 0, decide (m2.data = (newPhiMap (α := Nat)).data)))
      = some (1, some 42, false) := by
  decide

/-- C6 amended: `Set` never rejects the sentinel key 0: whenever the sentinel's
home slot is free and the table is below threshold, `set(0, v)` stores `(0, v)`
in that slot and increments `size`, while the live-slot count stays unchanged
because the written key still reads as the free sentinel. -/
theorem C6_amended_no_sentinel_check [Inhabited α] (m : PhiMap α) (h : Inv m) (v : α)
    (hfree : keyAt m.data (home m.data.length 0) = 0)
    (hsz : m.size < (m.threshold : Int)) :
    ∃ m2, m.set 0 v = some m2 ∧ m2.size = m.size + 1 ∧
      m2.data = m.data.set (home m.data.length 0) ((0 : Nat), v) ∧
      countOcc m2.data = countOcc m.data := by
  have hc : 0 < m.data.length := h.len_pos
  obtain ⟨f, hf⟩ : ∃ f, m.data.length = f + 1 := ⟨m.data.length - 1, by omega⟩
  have hstep : probeLoopIns m.data m.mask 0 m.data.length (phiMix 0)
      = some (ProbeHit.free (home m.data.length 0)) := by
    rw [hf]
    show (let i := phiMix 0 &&& m.mask
          let k := keyAt m.data i
          if k = 0 then some (ProbeHit.free i)
          else if k = 0 then some (ProbeHit.found i)
          else probeLoopIns m.data m.mask 0 f (i + 1)) = _
    simp only [h.mask_and, home_def]
    rw [if_pos hfree, hf]
  refine ⟨PhiMap.mk (m.data.set (home m.data.length 0) ((0 : Nat), v)) m.threshold
      (m.size + 1) m.mask, ?_, rfl, rfl, ?_⟩
  · rw [PhiMap.set, hstep, Option.some_bind]
    show (if m.size ≥ (m.threshold : Int) then _ else _) = _
    rw [if_neg (by omega : ¬ m.size ≥ (m.threshold : Int))]
  · have hkj : ∀ j, keyAt (m.data.set (home m.data.length 0) ((0 : Nat), v)) j
        = keyAt m.data j := by
      intro j
      by_cases hj : j = home m.data.length 0
      · rw [hj, keyAt_set_self (home_lt hc)]
        exact hfree.symm
      · exact keyAt_set_ne (fun h2 => hj h2.symm) _
    exact (congr_keys (List.length_set ..) hkj).2.2

theorem C6_amended_no_sentinel_check_witness :
    ∃ m2, (newPhiMap (α := Nat)).set 0 42 = some m2 ∧
      m2.size = (newPhiMap (α := Nat)).size + 1 ∧
      m2.data = (newPhiMap (α := Nat)).data.set
        (home (newPhiMap (α := Nat)).data.length 0) ((0 : Nat), 42) ∧
      countOcc m2.data = countOcc (newPhiMap (α := Nat)).data :=
  C6_amended_no_sentinel_check (newPhiMap (α := Nat)) inv_newPhiMap 42
    (by decide) (by decide)

/-! ## TypeMap (src/typemap.go and src/unnamed/part_001): sequential model

The slow path stores one `dirtyEntry` per key; `SetByUintptr` is modelled per
key as a function of the entry state and the builder outcomes, and `calibrate`
as a function of the fast table and the slow store (the `wait = true`
synchronous path). -/

variable {ε : Type}

/-- `dirtyEntry` from src/typemap.go lines 25-29: the `sync.Once` gate (whether
its body has run), the cached error, and the atomically stored value. -/
structure DirtyEntry (ε α : Type) where
  onceDone : Bool
  err : Option ε
  val : Option α
  deriving Repr, DecidableEq

/-- The fresh `&dirtyEntry{}` installed by `LoadOrStore` (line 97). -/
def freshEntry : DirtyEntry ε α := ⟨false, none, none⟩

/-- `entry.once.Do(...)` from src/typemap.go lines 100-107: run the builder
(outcome `r1`) only if the gate has not fired, store the error, and store the
value only on success.  Returns the updated entry, whether the body ran
(`called`), and the number of builder invocations. -/
def runOnce (e : DirtyEntry ε α) (r1 : Except ε α) : DirtyEntry ε α × Bool × Nat :=
  if e.onceDone then (e, false, 0)
  else
    match r1 with
    | .ok v => (⟨true, none, some v⟩, true, 1)
    | .error er => (⟨true, some er, e.val⟩, true, 1)

/-- `SetByUintptr` from src/typemap.go lines 95-124, for one key's entry:
`r1` is the builder outcome consumed by the once-gated body, `r2` the outcome
of the retry call `f()` on the error path (line 113).  Returns the updated
entry, the `(value, error)` pair handed to the caller, and how many times the
builder was invoked during this call. -/
def setByUintptr (e : DirtyEntry ε α) (r1 r2 : Except ε α) :
    DirtyEntry ε α × (Option α × Option ε) × Nat :=
  let s := runOnce e r1
  match s.1.val with
  | some v => (s.1, (some v, none), s.2.2)
  | none =>
    if s.2.1 then (s.1, (none, s.1.err), s.2.2)
    else
      match r2 with
      | .error er => (s.1, (none, some er), s.2.2 + 1)
      | .ok v => ({ s.1 with val := some v }, (some v, none), s.2.2 + 1)

/-- `SetByUintptr` from src/unnamed/part_001 lines 98-117: no retry — after the
once-gate a cached error is returned as-is on every later call. -/
def setByUintptrV1 (e : DirtyEntry ε α) (r1 : Except ε α) :
    DirtyEntry ε α × (Option α × Option ε) × Nat :=
  let s := runOnce e r1
  match s.1.err with
  | some er => (s.1, (none, some er), s.2.2)
  | none => (s.1, (s.1.val, none), s.2.2)

/-- A sequence of `SetByUintptr` calls on one key's entry (src/typemap.go):
final entry, per-call results, and the total number of builder invocations. -/
def runCalls (e : DirtyEntry ε α) : List (Except ε α × Except ε α) →
    DirtyEntry ε α × List (Option α × Option ε) × Nat
  | [] => (e, [], 0)
  | r :: rest =>
    let s := setByUintptr e r.1 r.2
    let t := runCalls s.1 rest
    (t.1, s.2.1 :: t.2.1, s.2.2 + t.2.2)

/-- A sequence of `SetByUintptr` calls in the src/unnamed/part_001 variant. -/
def runCallsV1 (e : DirtyEntry ε α) : List (Except ε α) →
    DirtyEntry ε α × List (Option α × Option ε) × Nat
  | [] => (e, [], 0)
  | r :: rest =>
    let s := setByUintptrV1 e r
    let t := runCallsV1 s.1 rest
    (t.1, s.2.1 :: t.2.1, s.2.2 + t.2.2)

theorem runOnce_onceDone (e : DirtyEntry ε α) (r : Except ε α) :
    (runOnce e r).1.onceDone = true := by
  rw [runOnce.eq_def]
  split
  · rename_i h1
    exact h1
  · cases r <;> rfl

theorem runOnce_count_le (e : DirtyEntry ε α) (r : Except ε α) :
    (runOnce e r).2.2 ≤ 1 := by
  rw [runOnce.eq_def]
  split
  · exact Nat.zero_le 1
  · cases r <;> exact Nat.le_refl 1

theorem setByUintptrV1_entry (e : DirtyEntry ε α) (r : Except ε α) :
    (setByUintptrV1 e r).1 = (runOnce e r).1
      ∧ (setByUintptrV1 e r).2.2 = (runOnce e r).2.2 := by
  cases her : (runOnce e r).1.err <;> simp [setByUintptrV1, her]

theorem setByUintptrV1_done {e : DirtyEntry ε α} (he : e.onceDone = true)
    (r : Except ε α) :
    (setByUintptrV1 e r).1 = e ∧ (setByUintptrV1 e r).2.2 = 0 := by
  cases her : e.err <;> simp [setByUintptrV1, runOnce, he, her]

theorem runCallsV1_after_done {e : DirtyEntry ε α} (he : e.onceDone = true) :
    ∀ calls : List (Except ε α), (runCallsV1 e calls).2.2 = 0
  | [] => rfl
  | r :: rest => by
    rw [runCallsV1]
    obtain ⟨h1, h2⟩ := setByUintptrV1_done he r
    show (setByUintptrV1 e r).2.2 + (runCallsV1 (setByUintptrV1 e r).1 rest).2.2 = 0
    rw [h1, h2, runCallsV1_after_done he rest]

theorem runCallsV1_le_one : ∀ calls : List (Except ε α),
    (runCallsV1 (freshEntry (ε := ε) (α := α)) calls).2.2 ≤ 1
  | [] => Nat.zero_le 1
  | r :: rest => by
    rw [runCallsV1]
    show (setByUintptrV1 (freshEntry (ε := ε) (α := α)) r).2.2
        + (runCallsV1 (setByUintptrV1 (freshEntry (ε := ε) (α := α)) r).1 rest).2.2 ≤ 1
    have hdone : (setByUintptrV1 (freshEntry (ε := ε) (α := α)) r).1.onceDone = true := by
      rw [(setByUintptrV1_entry freshEntry r).1]
      exact runOnce_onceDone freshEntry r
    rw [runCallsV1_after_done hdone rest, (setByUintptrV1_entry freshEntry r).2]
    have h1 := runOnce_count_le (freshEntry (ε := ε) (α := α)) r
    omega

theorem runCalls_stored (v : α) : ∀ calls : List (Except ε α × Except ε α),
    runCalls (⟨true, none, some v⟩ : DirtyEntry ε α) calls
      = (⟨true, none, some v⟩, calls.map fun _ => (some v, none), 0)
  | [] => rfl
  | r :: rest => by
    rw [runCalls]
    show ((runCalls (⟨true, none, some v⟩ : DirtyEntry ε α) rest).1,
      ((some v, none) : Option α × Option ε)
        :: (runCalls (⟨true, none, some v⟩ : DirtyEntry ε α) rest).2.1,
      0 + (runCalls (⟨true, none, some v⟩ : DirtyEntry ε α) rest).2.2) = _
    rw [runCalls_stored v rest]
    rfl

/-- C3 counterexample: in src/typemap.go, when the once-gated builder
invocation returned an error, the next `SetByUintptr` call for the same key
calls the builder again (`val1, err1 := f()` on line 113): two consecutive
calls whose builders both error invoke the builder twice in total, not at most
once per slow-path lifetime. -/
theorem C3_counterexample :
    (runCalls (freshEntry (ε := Nat) (α := Nat))
      [(Except.error 7, Except.error 7), (Except.error 7, Except.error 7)]).2.2 = 2 ∧
    ¬ (2 : Nat) ≤ 1 := by
  exact ⟨rfl, by omega⟩

/-- C3 amended: the at-most-once guarantee holds in the src/unnamed/part_001
variant for every call sequence, and in src/typemap.go on the success path:
once a successful value is stored, every later call returns it with no builder
invocation, and a first call whose builder succeeds invokes it exactly once —
but after an error the builder can run again (see the counterexample). -/
theorem C3_amended_single_flight (ε α : Type) :
    (∀ calls : List (Except ε α),
      (runCallsV1 (freshEntry (ε := ε) (α := α)) calls).2.2 ≤ 1) ∧
    (∀ (v : α) (calls : List (Except ε α × Except ε α)),
      runCalls (⟨true, none, some v⟩ : DirtyEntry ε α) calls
        = (⟨true, none, some v⟩, calls.map fun _ => (some v, none), 0)) ∧
    (∀ (v : α) (r2 : Except ε α) (calls : List (Except ε α × Except ε α)),
      runCalls (freshEntry (ε := ε) (α := α)) ((Except.ok v, r2) :: calls)
        = (⟨true, none, some v⟩,
            (some v, none) :: calls.map fun _ => (some v, none), 1)) := by
  refine ⟨runCallsV1_le_one, runCalls_stored, ?_⟩
  intro v r2 calls
  rw [runCalls]
  show ((runCalls (⟨true, none, some v⟩ : DirtyEntry ε α) calls).1,
    ((some v, none) : Option α × Option ε)
      :: (runCalls (⟨true, none, some v⟩ : DirtyEntry ε α) calls).2.1,
    1 + (runCalls (⟨true, none, some v⟩ : DirtyEntry ε α) calls).2.2) = _
  rw [runCalls_stored v calls]
  rfl

/-- One `Range` iteration of `calibrate` (src/typemap.go lines 138-153): a key
already in the fast snapshot is only scheduled for deletion; otherwise a
successfully built value is inserted into the pending copy (created on first
use) and its key scheduled for deletion; error-only entries are skipped. -/
def calibStep [Inhabited α] (fast : PhiMap α)
    (acc : Option (Option (PhiMap α) × List Nat)) (e : Nat × DirtyEntry ε α) :
    Option (Option (PhiMap α) × List Nat) :=
  acc.bind fun nmdks =>
    (fast.has e.1).bind fun hs =>
      if hs then some (nmdks.1, nmdks.2 ++ [e.1])
      else
        match e.2.val with
        | none => some nmdks
        | some v =>
          (match nmdks.1 with
           | some mp => some mp
           | none => fast.copy).bind fun base =>
            (base.set e.1 v).map fun mp2 => (some mp2, nmdks.2 ++ [e.1])

/-- `calibrate` from src/typemap.go lines 126-168, sequentialised (the
`wait = true` synchronous path): scan the slow store, publish the pending copy
if one was created, and delete the collected keys from the slow store. -/
def calibrate [Inhabited α] (fast : PhiMap α)
    (slow : List (Nat × DirtyEntry ε α)) :
    Option (PhiMap α × List (Nat × DirtyEntry ε α)) :=
  (slow.foldl (calibStep fast) (some (none, []))).map fun nmdks =>
    (nmdks.1.getD fast, slow.filter fun e => decide (e.1 ∉ nmdks.2))

/-- The slow-store entries holding a successfully built value, as key-value
pairs. -/
def succEntries (slow : List (Nat × DirtyEntry ε α)) : List (Nat × α) :=
  slow.filterMap fun e => e.2.val.map fun v => (e.1, v)

/-- Invariant of the `calibrate` scan: the pending new map (if any) satisfies
the table invariant and holds exactly the fast snapshot's entries plus the
successes moved so far. -/
def calibInv [Inhabited α] (fast : PhiMap α) (nm : Option (PhiMap α))
    (S : List (Nat × α)) : Prop :=
  match nm with
  | none => S = []
  | some mp => Inv mp ∧
      ∀ k v, k ≠ 0 → (hasKV mp.data k v ↔ hasKV fast.data k v ∨ (k, v) ∈ S)

theorem calibStep_skip [Inhabited α] {fast : PhiMap α} {e : Nat × DirtyEntry ε α}
    (hhase : fast.has e.1 = some false) (hval : e.2.val = none)
    (nm : Option (PhiMap α)) (dks : List Nat) :
    calibStep fast (some (nm, dks)) e = some (nm, dks) := by
  rw [calibStep, Option.some_bind, hhase, Option.some_bind,
    if_neg Bool.false_ne_true, hval]

theorem calibStep_move [Inhabited α] {fast : PhiMap α} {e : Nat × DirtyEntry ε α}
    {v : α} {base mp2 : PhiMap α}
    (hhase : fast.has e.1 = some false) (hval : e.2.val = some v)
    (nm : Option (PhiMap α)) (dks : List Nat)
    (hbase : (match nm with | some mp => some mp | none => fast.copy) = some base)
    (hset : base.set e.1 v = some mp2) :
    calibStep fast (some (nm, dks)) e = some (some mp2, dks ++ [e.1]) := by
  rw [calibStep, Option.some_bind, hhase, Option.some_bind,
    if_neg Bool.false_ne_true, hval]
  show ((match nm with | some mp => some mp | none => fast.copy).bind fun base =>
    (base.set e.1 v).map fun mp2 => (some mp2, dks ++ [e.1])) = _
  rw [hbase, Option.some_bind, hset]
  rfl

theorem calibrate_fold [Inhabited α] {fast : PhiMap α} (h : Inv fast) :
    ∀ (slow : List (Nat × DirtyEntry ε α)) (nm : Option (PhiMap α)) (dks : List Nat)
      (S : List (Nat × α)),
      calibInv fast nm S →
      (∀ e ∈ slow, e.1 ≠ 0) →
      (slow.map Prod.fst).Nodup →
      (∀ e ∈ slow, ¬ hasK fast.data e.1) →
      (∀ e ∈ slow, e.1 ∉ S.map Prod.fst) →
      ∃ nm2, slow.foldl (calibStep fast) (some (nm, dks))
          = some (nm2, dks ++ ((slow.filter fun e => e.2.val.isSome).map Prod.fst)) ∧
        calibInv fast nm2 (S ++ succEntries slow)
  | [], nm, dks, S, hinv, _, _, _, _ =>
    ⟨nm, by rw [List.foldl_nil, List.filter_nil, List.map_nil, List.append_nil],
      by rw [show succEntries ([] : List (Nat × DirtyEntry ε α)) = [] from rfl,
        List.append_nil]; exact hinv⟩
  | e :: rest, nm, dks, S, hinv, h0, hnd, habs, hfresh => by
    rw [List.map_cons, List.nodup_cons] at hnd
    have he0 : e.1 ≠ 0 := h0 e (List.mem_cons_self _ _)
    have hhase : fast.has e.1 = some false :=
      (get_of_absent h he0 (hasK_not_iff.mp (habs e (List.mem_cons_self _ _)))).2
    rw [List.foldl_cons]
    cases hval : e.2.val with
    | none =>
      rw [calibStep_skip hhase hval nm dks]
      obtain ⟨nm2, hfold, hinv2⟩ := calibrate_fold h rest nm dks S hinv
        (fun x hx => h0 x (List.mem_cons_of_mem _ hx)) hnd.2
        (fun x hx => habs x (List.mem_cons_of_mem _ hx))
        (fun x hx => hfresh x (List.mem_cons_of_mem _ hx))
      refine ⟨nm2, ?_, ?_⟩
      · rw [hfold]
        have hfe : (e :: rest).filter (fun x => x.2.val.isSome)
            = rest.filter (fun x => x.2.val.isSome) := by
          rw [List.filter_cons]
          simp [hval]
        rw [hfe]
      · have hse : succEntries (e :: rest) = succEntries rest := by
          rw [succEntries, List.filterMap_cons]
          simp only [hval, Option.map_none]
          rfl
        rw [hse]
        exact hinv2
    | some v =>
      obtain ⟨base, hbase, hbinv, hbcont⟩ : ∃ base,
          (match nm with | some mp => some mp | none => fast.copy) = some base ∧
          Inv base ∧
          (∀ k v2, k ≠ 0 →
            (hasKV base.data k v2 ↔ hasKV fast.data k v2 ∨ (k, v2) ∈ S)) := by
        cases nm with
        | some mp => exact ⟨mp, rfl, hinv.1, hinv.2⟩
        | none =>
          obtain ⟨mp, hcp, hinv2, _, _, _, _, hmem2⟩ := copy_spec h
          have hS : S = [] := hinv
          refine ⟨mp, hcp, hinv2, fun k v2 hk => ?_⟩
          rw [hmem2 k v2 hk, hS]
          exact (or_iff_left (List.not_mem_nil _)).symm
      obtain ⟨mp2, hset, hinv2, hstore, hother, -⟩ := set_spec hbinv he0 v
      have hcont2 : ∀ k v2, k ≠ 0 →
          (hasKV mp2.data k v2 ↔ hasKV fast.data k v2 ∨ (k, v2) ∈ S ++ [(e.1, v)]) := by
        intro k v2 hk
        by_cases hke : k = e.1
        · subst hke
          constructor
          · intro h2
            rw [hasKV_unique hinv2.nodup hk h2 hstore]
            exact Or.inr (List.mem_append.mpr (Or.inr (List.mem_singleton.mpr rfl)))
          · rintro (h2 | h2)
            · exact absurd ⟨h2.choose, h2.choose_spec.1, h2.choose_spec.2.1⟩
                (habs e (List.mem_cons_self _ _))
            · rcases List.mem_append.mp h2 with h3 | h3
              · exact absurd (List.mem_map.mpr ⟨_, h3, rfl⟩)
                  (hfresh e (List.mem_cons_self _ _))
              · have hv2 : v2 = v := (congrArg Prod.snd (List.mem_singleton.mp h3) : v2 = v)
                rw [hv2]
                exact hstore
        · rw [hother k v2 hk hke, hbcont k v2 hk, List.mem_append]
          constructor
          · rintro (h2 | h2)
            · exact Or.inl h2
            · exact Or.inr (Or.inl h2)
          · rintro (h2 | h2 | h2)
            · exact Or.inl h2
            · exact Or.inr h2
            · exact absurd (congrArg Prod.fst (List.mem_singleton.mp h2) : k = e.1) hke
      have hfresh2 : ∀ x ∈ rest, x.1 ∉ (S ++ [(e.1, v)]).map Prod.fst := by
        intro x hx h2
        rw [List.map_append, List.mem_append] at h2
        rcases h2 with h2 | h2
        · exact hfresh x (List.mem_cons_of_mem _ hx) h2
        · rw [List.map_singleton, List.mem_singleton] at h2
          apply hnd.1
          rw [← h2]
          exact List.mem_map.mpr ⟨x, hx, rfl⟩
      rw [calibStep_move hhase hval nm dks hbase hset]
      obtain ⟨nm2, hfold, hinv3⟩ := calibrate_fold h rest (some mp2) (dks ++ [e.1])
        (S ++ [(e.1, v)]) ⟨hinv2, hcont2⟩
        (fun x hx => h0 x (List.mem_cons_of_mem _ hx)) hnd.2
        (fun x hx => habs x (List.mem_cons_of_mem _ hx)) hfresh2
      refine ⟨nm2, ?_, ?_⟩
      · rw [hfold]
        have hfe : (e :: rest).filter (fun x => x.2.val.isSome)
            = e :: rest.filter (fun x => x.2.val.isSome) := by
          rw [List.filter_cons]
          simp [hval]
        rw [hfe, List.map_cons, List.append_assoc, List.singleton_append]
      · have hse : succEntries (e :: rest) = (e.1, v) :: succEntries rest := by
          rw [succEntries, List.filterMap_cons]
          simp only [hval, Option.map_some]
          rfl
        rw [hse, show S ++ (e.1, v) :: succEntries rest
            = (S ++ [(e.1, v)]) ++ succEntries rest from by
          rw [List.append_assoc, List.singleton_append]]
        exact hinv3

set_option maxRecDepth 100000 in
/-- C4 counterexample: key 5 reaches the fast table with value 1 by a first
calibration; a later successful `setOrCompute` stores the newer value 2 in the
slow store, but the next calibration sees the key already in the fast snapshot,
deletes the slow entry without moving it, and the fast path still returns 1 —
not the value 2 stored by the successful `setOrCompute` calls preceding the
calibration. -/
theorem C4_counterexample :
    ((calibrate (newPhiMap (α := Nat))
        [(5, (⟨true, none, some 1⟩ : DirtyEntry Nat Nat))]).bind fun fs =>
      calibrate fs.1 [(5, (⟨true, none, some 2⟩ : DirtyEntry Nat Nat))]).map
        (fun fs => (fs.1.get 5, fs.2)) = some (some 1, []) ∧
    some (1 : Nat) ≠ some 2 := by
  decide

/-- C4 amended: for slow-store entries with pairwise distinct non-sentinel keys
that are all absent from the fast snapshot, a synchronous calibration moves
every successfully built value into the fast path (`get` returns it), keeps all
previous fast entries reachable, removes exactly the moved keys from the slow
store, and leaves the error-only entries in the slow store untouched.  (For a
key already present in the fast snapshot the slow entry is deleted without
updating the fast value — C4's counterexample.) -/
theorem C4_amended_calibration [Inhabited α] {fast : PhiMap α} (h : Inv fast)
    (slow : List (Nat × DirtyEntry ε α))
    (h0 : ∀ e ∈ slow, e.1 ≠ 0) (hnd : (slow.map Prod.fst).Nodup)
    (habs : ∀ e ∈ slow, ∀ x, x < fast.data.length → keyAt fast.data x ≠ e.1) :
    ∃ fast2 slow2, calibrate fast slow = some (fast2, slow2) ∧
      (∀ e ∈ slow, ∀ v, e.2.val = some v → fast2.get e.1 = some v) ∧
      (∀ k v, k ≠ 0 → hasKV fast.data k v → fast2.get k = some v) ∧
      (∀ e ∈ slow, e.2.val = none → e ∈ slow2) ∧
      (∀ e ∈ slow2, e ∈ slow ∧ e.2.val = none) := by
  have habs2 : ∀ e ∈ slow, ¬ hasK fast.data e.1 :=
    fun e he => hasK_not_iff.mpr (habs e he)
  obtain ⟨nm2, hfold, hinv2⟩ := calibrate_fold h slow none [] [] rfl h0 hnd habs2
    (fun e _ h2 => absurd h2 (by rw [List.map_nil]; exact List.not_mem_nil _))
  rw [List.nil_append] at hfold
  rw [List.nil_append] at hinv2
  have hcal : calibrate fast slow
      = some (nm2.getD fast, slow.filter fun e =>
          decide (e.1 ∉ (slow.filter fun x => x.2.val.isSome).map Prod.fst)) := by
    rw [calibrate, hfold]
    rfl
  have hQ : Inv (nm2.getD fast) ∧ ∀ k v, k ≠ 0 →
      (hasKV (nm2.getD fast).data k v
        ↔ hasKV fast.data k v ∨ (k, v) ∈ succEntries slow) := by
    cases nm2 with
    | none =>
      have hs : succEntries (ε := ε) slow = [] := hinv2
      refine ⟨h, fun k v hk => ?_⟩
      rw [show Option.getD (none : Option (PhiMap α)) fast = fast from rfl, hs]
      exact (or_iff_left (List.not_mem_nil _)).symm
    | some mp =>
      exact ⟨hinv2.1, hinv2.2⟩
  have hdks : ∀ e ∈ slow, (e.1 ∈ (slow.filter fun x => x.2.val.isSome).map Prod.fst
      ↔ e.2.val.isSome = true) := by
    intro e he
    constructor
    · intro h2
      obtain ⟨e2, he2, hee⟩ := List.mem_map.mp h2
      have he2s := List.mem_filter.mp he2
      rw [← mem_fst_inj hnd he2s.1 he hee]
      exact he2s.2
    · intro h2
      exact List.mem_map.mpr ⟨e, List.mem_filter.mpr ⟨he, h2⟩, rfl⟩
  refine ⟨nm2.getD fast, _, hcal, ?_, ?_, ?_, ?_⟩
  · intro e he v hv
    have hmem : (e.1, v) ∈ succEntries (ε := ε) slow :=
      List.mem_filterMap.mpr ⟨e, he, by rw [hv]; rfl⟩
    exact (get_hasKV hQ.1 (h0 e he) ((hQ.2 e.1 v (h0 e he)).mpr (Or.inr hmem))).1
  · intro k v hk hkv
    exact (get_hasKV hQ.1 hk ((hQ.2 k v hk).mpr (Or.inl hkv))).1
  · intro e he hv
    refine List.mem_filter.mpr ⟨he, decide_eq_true ?_⟩
    intro h2
    have h3 := (hdks e he).mp h2
    rw [hv] at h3
    exact Bool.false_ne_true h3
  · intro e he
    obtain ⟨he1, he2⟩ := List.mem_filter.mp he
    refine ⟨he1, ?_⟩
    have h2 : e.1 ∉ (slow.filter fun x => x.2.val.isSome).map Prod.fst :=
      of_decide_eq_true he2
    cases hv : e.2.val with
    | none => rfl
    | some v =>
      exact absurd ((hdks e he1).mpr (by rw [hv]; rfl)) h2

theorem C4_amended_calibration_witness :
    ∃ fast2 slow2, calibrate (newPhiMap (α := Nat))
        [(5, (⟨true, none, some 1⟩ : DirtyEntry Nat Nat)),
          (6, (⟨true, some 9, none⟩ : DirtyEntry Nat Nat))] = some (fast2, slow2) ∧
      (∀ e ∈ [(5, (⟨true, none, some 1⟩ : DirtyEntry Nat Nat)),
          (6, (⟨true, some 9, none⟩ : DirtyEntry Nat Nat))],
        ∀ v, e.2.val = some v → fast2.get e.1 = some v) ∧
      (∀ k v, k ≠ 0 → hasKV (newPhiMap (α := Nat)).data k v → fast2.get k = some v) ∧
      (∀ e ∈ [(5, (⟨true, none, some 1⟩ : DirtyEntry Nat Nat)),
          (6, (⟨true, some 9, none⟩ : DirtyEntry Nat Nat))],
        e.2.val = none → e ∈ slow2) ∧
      (∀ e ∈ slow2, e ∈ [(5, (⟨true, none, some 1⟩ : DirtyEntry Nat Nat)),
          (6, (⟨true, some 9, none⟩ : DirtyEntry Nat Nat))] ∧ e.2.val = none) :=
  C4_amended_calibration inv_newPhiMap _ (by decide) (by decide) (by decide)

end PhiMapModel
